import Mathlib

/-!
Verification of the snapshot comparison core of the
iris-migration-checklist-extension repository.

The comparison core (src/core/compare.js, src/core/strategies/entityCompare.js,
src/core/strategies/flatCompare.js, src/core/registry.js) is a pure,
synchronous transformation over JSON-shaped data.  This file gives a shallow
embedding of that core in Lean and proves the specified properties about it.

JSON-compatible values are modelled by the inductive type Json below.
JavaScript objects are modelled as association lists of fields; a JavaScript
object always has pairwise distinct keys, so statements that depend on key
uniqueness carry an explicit Nodup hypothesis.  JSON numbers are modelled as
integers (the snapshots hold ids, counts and flags; no claim depends on
non-integral floating point behaviour).  The absent value (JavaScript
undefined) is modelled by Option.none wherever the code distinguishes it.
-/

/-- A JSON-compatible value: null, boolean, number, string, array or object.
Objects are association lists of (key, value) fields; JavaScript objects have
pairwise distinct keys. -/
inductive Json where
  | null : Json
  | bool (b : Bool) : Json
  | num (n : Int) : Json
  | str (s : String) : Json
  | arr (elems : List Json) : Json
  | obj (fields : List (String × Json)) : Json
  deriving Repr

mutual

/-- Structural equality test on JSON values. -/
def Json.beq : Json → Json → Bool
  | .null, .null => true
  | .bool a, .bool b => a == b
  | .num a, .num b => a == b
  | .str a, .str b => a == b
  | .arr xs, .arr ys => Json.beqElems xs ys
  | .obj fs, .obj gs => Json.beqFields fs gs
  | _, _ => false

/-- Structural equality test on lists of JSON values. -/
def Json.beqElems : List Json → List Json → Bool
  | [], [] => true
  | x :: xs, y :: ys => Json.beq x y && Json.beqElems xs ys
  | _, _ => false

/-- Structural equality test on field lists. -/
def Json.beqFields : List (String × Json) → List (String × Json) → Bool
  | [], [] => true
  | (k, v) :: fs, (l, w) :: gs => k == l && Json.beq v w && Json.beqFields fs gs
  | _, _ => false

end

mutual

theorem Json.beq_iff : ∀ a b : Json, Json.beq a b = true ↔ a = b
  | .null, b => by cases b <;> simp [Json.beq]
  | .bool _, b => by cases b <;> simp [Json.beq]
  | .num _, b => by cases b <;> simp [Json.beq]
  | .str _, b => by cases b <;> simp [Json.beq]
  | .arr xs, b => by
    cases b <;> simp [Json.beq]
    exact Json.beqElems_iff xs _
  | .obj fs, b => by
    cases b <;> simp [Json.beq]
    exact Json.beqFields_iff fs _

theorem Json.beqElems_iff : ∀ xs ys : List Json, Json.beqElems xs ys = true ↔ xs = ys
  | [], [] => by simp [Json.beqElems]
  | [], _ :: _ => by simp [Json.beqElems]
  | _ :: _, [] => by simp [Json.beqElems]
  | x :: xs, y :: ys => by
    simp [Json.beqElems, Json.beq_iff x y, Json.beqElems_iff xs ys]

theorem Json.beqFields_iff :
    ∀ fs gs : List (String × Json), Json.beqFields fs gs = true ↔ fs = gs
  | [], [] => by simp [Json.beqFields]
  | [], _ :: _ => by simp [Json.beqFields]
  | _ :: _, [] => by simp [Json.beqFields]
  | (k, v) :: fs, (l, w) :: gs => by
    simp [Json.beqFields, Json.beq_iff v w, Json.beqFields_iff fs gs]

end

instance : BEq Json := ⟨Json.beq⟩

instance : DecidableEq Json := fun a b =>
  decidable_of_iff (Json.beq a b = true) (Json.beq_iff a b)

/-! ## Decimal rendering of numbers

Model of the JavaScript decimal text of an integer, as produced by both
JSON.stringify and String() on (integral) numbers.  Built from Nat.digits so
that injectivity follows from the digits round-trip. -/

/-- Decimal digit characters of a natural number, most significant first. -/
def natChars (n : Nat) : List Char :=
  ((Nat.digits 10 n).map Nat.digitChar).reverse

/-- Decimal text of a natural number. -/
def natRepr (n : Nat) : String :=
  if n = 0 then String.mk ['0'] else String.mk (natChars n)

/-- Decimal text of an integer (model of the JavaScript rendering). -/
def numRepr : Int → String
  | .ofNat n => natRepr n
  | .negSucc n => "-" ++ natRepr (n + 1)

theorem digitChar_inj_lt : ∀ a, a < 10 → ∀ b, b < 10 →
    Nat.digitChar a = Nat.digitChar b → a = b := by decide

theorem digitChar_isDigit : ∀ a, a < 10 → (Nat.digitChar a).isDigit = true := by decide

theorem map_digitChar_inj : ∀ (xs ys : List Nat), (∀ x ∈ xs, x < 10) →
    (∀ y ∈ ys, y < 10) → xs.map Nat.digitChar = ys.map Nat.digitChar → xs = ys
  | [], [], _, _, _ => rfl
  | [], _ :: _, _, _, h => by simp at h
  | _ :: _, [], _, _, h => by simp at h
  | x :: xs, y :: ys, hx, hy, h => by
    simp only [List.map_cons, List.cons.injEq] at h
    have hxy : x = y :=
      digitChar_inj_lt x (hx x (by simp)) y (hy y (by simp)) h.1
    have : xs = ys :=
      map_digitChar_inj xs ys (fun a ha => hx a (by simp [ha]))
        (fun a ha => hy a (by simp [ha])) h.2
    rw [hxy, this]

theorem natChars_inj (m n : Nat) (h : natChars m = natChars n) : m = n := by
  have h1 : (Nat.digits 10 m).map Nat.digitChar = (Nat.digits 10 n).map Nat.digitChar :=
    List.reverse_injective h
  have h2 : Nat.digits 10 m = Nat.digits 10 n :=
    map_digitChar_inj _ _ (fun x hx => Nat.digits_lt_base (by norm_num) hx)
      (fun y hy => Nat.digits_lt_base (by norm_num) hy) h1
  calc m = Nat.ofDigits 10 (Nat.digits 10 m) := (Nat.ofDigits_digits 10 m).symm
    _ = Nat.ofDigits 10 (Nat.digits 10 n) := by rw [h2]
    _ = n := Nat.ofDigits_digits 10 n

theorem natChars_eq_zero_char (n : Nat) (h : natChars n = ['0']) : n = 0 := by
  have h1 : (Nat.digits 10 n).map Nat.digitChar = ['0'] := by
    have := congrArg List.reverse h
    simpa [natChars] using this
  have h2 : Nat.digits 10 n = [0] :=
    map_digitChar_inj _ [0] (fun x hx => Nat.digits_lt_base (by norm_num) hx)
      (by simp) (by simpa using h1)
  have := Nat.ofDigits_digits 10 n
  rw [h2] at this
  simpa [Nat.ofDigits] using this.symm

theorem natRepr_inj (m n : Nat) (h : natRepr m = natRepr n) : m = n := by
  unfold natRepr at h
  by_cases hm : m = 0 <;> by_cases hn : n = 0 <;> simp [hm, hn] at h ⊢
  · -- m = 0, n ≠ 0
    have hd : natChars n = ['0'] := by
      have := congrArg String.data h
      simpa using this.symm
    exact absurd (natChars_eq_zero_char n hd) hn
  · -- m ≠ 0, n = 0
    have hd : natChars m = ['0'] := by
      have := congrArg String.data h
      simpa using this
    exact absurd (natChars_eq_zero_char m hd) hm
  · exact natChars_inj m n (congrArg String.data h)

theorem natRepr_all_digits (n : Nat) :
    ∀ c ∈ (natRepr n).data, c.isDigit = true := by
  unfold natRepr
  by_cases hn : n = 0 <;> simp [hn]
  · intro c hc
    simp only [natChars, List.mem_reverse, List.mem_map] at hc
    obtain ⟨d, hd, rfl⟩ := hc
    exact digitChar_isDigit d (Nat.digits_lt_base (by norm_num) hd)

theorem numRepr_inj (a b : Int) (h : numRepr a = numRepr b) : a = b := by
  match a, b with
  | .ofNat m, .ofNat n =>
    simp only [numRepr] at h
    exact congrArg Int.ofNat (natRepr_inj m n h)
  | .negSucc m, .negSucc n =>
    simp only [numRepr] at h
    have hd := congrArg String.data h
    simp only [String.data_append] at hd
    have hdata : (natRepr (m + 1)).data = (natRepr (n + 1)).data := by
      have hmn : ('-' : Char) :: (natRepr (m + 1)).data =
          '-' :: (natRepr (n + 1)).data := by simpa using hd
      exact List.cons_injective hmn
    have hmn : m + 1 = n + 1 := natRepr_inj (m + 1) (n + 1) (String.ext hdata)
    have : m = n := by omega
    rw [this]
  | .ofNat m, .negSucc n =>
    exfalso
    simp only [numRepr] at h
    have hd := congrArg String.data h
    simp only [String.data_append] at hd
    have hmem : ('-' : Char) ∈ (natRepr m).data := by
      rw [hd]
      simp
    have := natRepr_all_digits m '-' hmem
    simp [Char.isDigit] at this
  | .negSucc m, .ofNat n =>
    exfalso
    simp only [numRepr] at h
    have hd := congrArg String.data h
    simp only [String.data_append] at hd
    have hmem : ('-' : Char) ∈ (natRepr n).data := by
      rw [← hd]
      simp
    have := natRepr_all_digits n '-' hmem
    simp [Char.isDigit] at this

theorem numRepr_all_digits_or_dash (i : Int) :
    ∀ c ∈ (numRepr i).data, c.isDigit = true ∨ c = '-' := by
  match i with
  | .ofNat n => exact fun c hc => Or.inl (natRepr_all_digits n c hc)
  | .negSucc n =>
    intro c hc
    simp only [numRepr, String.data_append] at hc
    rcases List.mem_append.mp hc with h | h
    · right
      simpa using h
    · exact Or.inl (natRepr_all_digits (n + 1) c h)

theorem numRepr_ne_nil (i : Int) : (numRepr i).data ≠ [] := by
  match i with
  | .ofNat n =>
    simp only [numRepr, natRepr]
    by_cases hn : n = 0 <;> simp [hn]
    simp only [natChars, ← List.length_pos_iff_ne_nil, List.length_reverse,
      List.length_map]
    have hne : Nat.digits 10 n ≠ [] := Nat.digits_ne_nil_iff_ne_zero.mpr hn
    exact List.length_pos_iff_ne_nil.mpr hne
  | .negSucc n => simp [numRepr, String.data_append]

/-! ## String quoting

Model of the JSON.stringify rendering of a string: the text wrapped in double
quotes, with embedded quotes and backslashes escaped.  (Further escape classes
of the host serializer, such as control characters, are immaterial to the
properties proved here; what matters is that the rendering is injective and
always starts with a quote character.) -/

/-- Escape a single character for a JSON string literal. -/
def escChar (c : Char) : List Char :=
  if c = '"' then ['\\', '"']
  else if c = '\\' then ['\\', '\\']
  else [c]

/-- Escape every character of a string body. -/
def escapeChars : List Char → List Char
  | [] => []
  | c :: cs => escChar c ++ escapeChars cs

/-- Model of JSON.stringify on a string value. -/
def quoteString (s : String) : String :=
  String.mk ('"' :: (escapeChars s.data ++ ['"']))

theorem escChar_ne_nil (c : Char) : escChar c ≠ [] := by
  unfold escChar
  split <;> [skip; split] <;> simp

theorem escChar_eq (c : Char) :
    escChar c = if c = '"' ∨ c = '\\' then ['\\', c] else [c] := by
  unfold escChar
  by_cases h1 : c = '"'
  · simp [h1]
  · by_cases h2 : c = '\\' <;> simp [h1, h2]

theorem escapeChars_inj : ∀ xs ys : List Char, escapeChars xs = escapeChars ys → xs = ys
  | [], [], _ => rfl
  | [], d :: ds, h => by
    exfalso
    simp only [escapeChars] at h
    cases he : escChar d with
    | nil => exact escChar_ne_nil d he
    | cons a l => rw [he] at h; simp at h
  | c :: cs, [], h => by
    exfalso
    simp only [escapeChars] at h
    cases he : escChar c with
    | nil => exact escChar_ne_nil c he
    | cons a l => rw [he] at h; simp at h
  | c :: cs, d :: ds, h => by
    simp only [escapeChars, escChar_eq] at h
    by_cases hc : c = '"' ∨ c = '\\'
    · by_cases hd : d = '"' ∨ d = '\\'
      · rw [if_pos hc, if_pos hd] at h
        simp only [List.cons_append, List.nil_append, List.cons.injEq,
          true_and] at h
        rw [h.1, escapeChars_inj cs ds h.2]
      · rw [if_pos hc, if_neg hd] at h
        simp only [List.cons_append, List.singleton_append, List.cons.injEq] at h
        exact absurd (Or.inr h.1.symm) hd
    · by_cases hd : d = '"' ∨ d = '\\'
      · rw [if_neg hc, if_pos hd] at h
        simp only [List.cons_append, List.singleton_append, List.cons.injEq] at h
        exact absurd (Or.inr h.1) hc
      · rw [if_neg hc, if_neg hd] at h
        simp only [List.singleton_append, List.cons.injEq] at h
        rw [h.1, escapeChars_inj cs ds h.2]

theorem quoteString_inj (s t : String) (h : quoteString s = quoteString t) : s = t := by
  have hd := congrArg String.data h
  simp only [quoteString] at hd
  have h1 : escapeChars s.data ++ ['"'] = escapeChars t.data ++ ['"'] :=
    List.cons_injective hd
  have h2 : escapeChars s.data = escapeChars t.data :=
    List.append_cancel_right h1
  exact String.ext (escapeChars_inj _ _ h2)

theorem quoteString_head (s : String) :
    (quoteString s).data.head? = some '"' := by
  simp [quoteString]

/-! ## Sorting helpers

The source sorts lists of strings with the default JavaScript comparator,
which is lexicographic; modelled by mergeSort with the String order.  Object
fields are sorted by key. -/

/-- Sort a list of strings lexicographically (JavaScript default sort). -/
def sortStrings (l : List String) : List String :=
  l.mergeSort (fun a b => decide (a ≤ b))

/-- Sort a field list by key (the iteration order of sorted Object.keys). -/
def sortPairs (l : List (String × Json)) : List (String × Json) :=
  l.mergeSort (fun p q => decide (p.1 ≤ q.1))

theorem sortStrings_perm (l : List String) : List.Perm (sortStrings l) l :=
  List.mergeSort_perm l _

theorem sortStrings_sorted (l : List String) :
    (sortStrings l).Pairwise (fun a b : String => a ≤ b) := by
  have h : (sortStrings l).Pairwise (fun a b : String => decide (a ≤ b) = true) :=
    List.sorted_mergeSort
      (fun a b c hab hbc => by
        simp only [decide_eq_true_eq] at *
        exact le_trans hab hbc)
      (fun a b => by
        simp only [Bool.or_eq_true, decide_eq_true_eq]
        exact le_total a b)
      l
  exact h.imp (fun hab => by simpa using hab)

theorem sortStrings_eq_of_perm {l₁ l₂ : List String} (h : List.Perm l₁ l₂) :
    sortStrings l₁ = sortStrings l₂ := by
  have hp : List.Perm (sortStrings l₁) (sortStrings l₂) :=
    (sortStrings_perm l₁).trans (h.trans (sortStrings_perm l₂).symm)
  exact List.eq_of_perm_of_sorted hp (sortStrings_sorted l₁) (sortStrings_sorted l₂)

theorem sortPairs_perm (l : List (String × Json)) : List.Perm (sortPairs l) l :=
  List.mergeSort_perm l _

theorem sortPairs_sorted (l : List (String × Json)) :
    (sortPairs l).Pairwise (fun p q : String × Json => p.1 ≤ q.1) := by
  have h : (sortPairs l).Pairwise
      (fun p q : String × Json => decide (p.1 ≤ q.1) = true) :=
    List.sorted_mergeSort
      (fun p q r hpq hqr => by
        simp only [decide_eq_true_eq] at *
        exact le_trans hpq hqr)
      (fun p q => by
        simp only [Bool.or_eq_true, decide_eq_true_eq]
        exact le_total p.1 q.1)
      l
  exact h.imp (fun hpq => by simpa using hpq)

/-! ## Canonical serialisation

Model of the canonicalize function.  The two source copies
(strategies/flatCompare.js and strategies/entityCompare.js) are identical:
primitives and null render as their JSON text form; arrays canonicalize each
element and sort the resulting strings lexicographically; objects emit
"key":value pairs in sorted key order.  An object field list models a
JavaScript object, whose keys are pairwise distinct, so iterating the field
pairs sorted by key is exactly iterating sorted Object.keys. -/

def canonicalize : Json → String
  | .null => "null"
  | .bool b => if b then "true" else "false"
  | .num n => numRepr n
  | .str s => quoteString s
  | .arr xs =>
    "[" ++ String.intercalate ","
      (sortStrings (xs.attach.map (fun x => canonicalize x.1))) ++ "]"
  | .obj fs =>
    "\x7b" ++ String.intercalate ","
      ((sortPairs fs).attach.map
        (fun p => quoteString p.1.1 ++ ":" ++ canonicalize p.1.2)) ++ "\x7d"
termination_by v => sizeOf v
decreasing_by
  · have hx := List.sizeOf_lt_of_mem x.2
    simp only [Json.arr.sizeOf_spec]
    omega
  · obtain ⟨⟨k, v⟩, hp⟩ := p
    have hmem := ((sortPairs_perm _).mem_iff).mp hp
    have h1 := List.sizeOf_lt_of_mem hmem
    have h2 : sizeOf ((k, v) : String × Json) = 1 + sizeOf k + sizeOf v := rfl
    simp only [Json.obj.sizeOf_spec]
    simp only [h2] at h1
    omega

/-- The canonical text of one object field. -/
def canonPair (p : String × Json) : String :=
  quoteString p.1 ++ ":" ++ canonicalize p.2

theorem canonicalize_arr (xs : List Json) :
    canonicalize (.arr xs) =
      "[" ++ String.intercalate "," (sortStrings (xs.map canonicalize)) ++ "]" := by
  rw [canonicalize]
  rw [List.attach_map_val xs canonicalize]

theorem canonicalize_obj (fs : List (String × Json)) :
    canonicalize (.obj fs) =
      "\x7b" ++ String.intercalate "," ((sortPairs fs).map canonPair) ++ "\x7d" := by
  rw [canonicalize]
  have : ((sortPairs fs).attach.map
      (fun p => quoteString p.1.1 ++ ":" ++ canonicalize p.1.2)) =
      (sortPairs fs).map canonPair :=
    List.attach_map_val (sortPairs fs) canonPair
  rw [this]

/-! ## Head-character classification of canonical strings -/

/-- Constructor discriminant of a JSON value. -/
def Json.kind : Json → Nat
  | .null => 0
  | .bool _ => 1
  | .num _ => 2
  | .str _ => 3
  | .arr _ => 4
  | .obj _ => 5

/-- Classify a character by which kind of canonical string can start with it;
the branches are mutually exclusive by construction. -/
def headCharKind (c : Char) : Nat :=
  if c = 'n' then 0
  else if c = 't' ∨ c = 'f' then 1
  else if c.isDigit = true ∨ c = '-' then 2
  else if c = '"' then 3
  else if c = '[' then 4
  else if c = '\x7b' then 5
  else 6

theorem headCharKind_num (c : Char) (h : c.isDigit = true ∨ c = '-') :
    headCharKind c = 2 := by
  have h1 : c ≠ 'n' := by
    rintro rfl
    rcases h with h | h <;> simp_all
  have h2 : ¬(c = 't' ∨ c = 'f') := by
    rintro (rfl | rfl) <;> rcases h with h | h <;> simp_all
  unfold headCharKind
  rw [if_neg h1, if_neg h2, if_pos h]

theorem canon_head_kind : ∀ v : Json,
    ∃ c, (canonicalize v).data.head? = some c ∧ headCharKind c = Json.kind v := by
  intro v
  match v with
  | .null => exact ⟨'n', by rw [canonicalize]; rfl, by decide⟩
  | .bool b =>
    cases b
    · exact ⟨'f', by rw [canonicalize]; rfl, by decide⟩
    · exact ⟨'t', by rw [canonicalize]; rfl, by decide⟩
  | .num n =>
    rw [canonicalize]
    cases hE : (numRepr n).data with
    | nil => exact absurd hE (numRepr_ne_nil n)
    | cons c rest =>
      refine ⟨c, by simp, ?_⟩
      have hc : c ∈ (numRepr n).data := by rw [hE]; exact List.mem_cons_self c rest
      exact headCharKind_num c (numRepr_all_digits_or_dash n c hc)
  | .str s =>
    refine ⟨'"', ?_, ?_⟩
    · rw [canonicalize]
      exact quoteString_head s
    · show headCharKind '"' = 3
      decide
  | .arr xs =>
    refine ⟨'[', ?_, ?_⟩
    · rw [canonicalize_arr]
      simp [String.data_append]
    · show headCharKind '[' = 4
      decide
  | .obj fs =>
    refine ⟨'\x7b', ?_, ?_⟩
    · rw [canonicalize_obj]
      simp [String.data_append]
    · show headCharKind '\x7b' = 5
      decide

theorem canonicalize_kind_eq {a b : Json} (h : canonicalize a = canonicalize b) :
    Json.kind a = Json.kind b := by
  obtain ⟨c, hc, hk⟩ := canon_head_kind a
  obtain ⟨d, hd, hk2⟩ := canon_head_kind b
  rw [h, hd] at hc
  obtain rfl : d = c := Option.some.inj hc
  rw [← hk, ← hk2]

/-- Canonicalisation is injective on primitive (non-container) values. -/
theorem canonicalize_prim_inj : ∀ a b : Json,
    Json.kind a ≤ 3 → canonicalize a = canonicalize b → a = b := by
  intro a b hk h
  have hkind := canonicalize_kind_eq h
  match a, b with
  | .null, .null => rfl
  | .bool x, .bool y =>
    rw [canonicalize, canonicalize] at h
    cases x <;> cases y <;> simp_all
  | .num m, .num n =>
    rw [canonicalize, canonicalize] at h
    rw [numRepr_inj m n h]
  | .str s, .str t =>
    rw [canonicalize, canonicalize] at h
    rw [quoteString_inj s t h]
  | .arr _, .arr _ => simp [Json.kind] at hk
  | .obj _, .obj _ => simp [Json.kind] at hk
  | .null, .bool _ | .null, .num _ | .null, .str _ | .null, .arr _ | .null, .obj _
  | .bool _, .null | .bool _, .num _ | .bool _, .str _ | .bool _, .arr _ | .bool _, .obj _
  | .num _, .null | .num _, .bool _ | .num _, .str _ | .num _, .arr _ | .num _, .obj _
  | .str _, .null | .str _, .bool _ | .str _, .num _ | .str _, .arr _ | .str _, .obj _
  | .arr _, .null | .arr _, .bool _ | .arr _, .num _ | .arr _, .str _ | .arr _, .obj _
  | .obj _, .null | .obj _, .bool _ | .obj _, .num _ | .obj _, .str _ | .obj _, .arr _ =>
    simp [Json.kind] at hkind

/-! ## Value equality (entity strategy) -/

/-- Model of the typeof operator restricted to JSON-compatible values.
Note typeof null is "object" in JavaScript. -/
def jsTypeof : Json → String
  | .null => "object"
  | .bool _ => "boolean"
  | .num _ => "number"
  | .str _ => "string"
  | .arr _ => "object"
  | .obj _ => "object"

/-- strategies/entityCompare.js, valuesEqual: deep equality via canonical
serialisation.  The first test models JavaScript strict equality (===);
for containers JavaScript === is reference equality, which implies structural
equality, and the container branch below returns canonical equality (which
structural equality implies), so the observable result is the same. -/
def valuesEqual (a b : Json) : Bool :=
  if a == b then true
  else if a == Json.null || b == Json.null then false
  else if jsTypeof a ≠ jsTypeof b then false
  else if jsTypeof a = "object" then canonicalize a == canonicalize b
  else false

instance : LawfulBEq Json where
  eq_of_beq h := (Json.beq_iff _ _).mp h
  rfl := (Json.beq_iff _ _).mpr rfl

theorem kind_eq_zero {b : Json} (h : Json.kind b = 0) : b = .null := by
  cases b <;> simp [Json.kind] at h ⊢

theorem jsTypeof_eq_of_kind {a b : Json} (h : Json.kind a = Json.kind b) :
    jsTypeof a = jsTypeof b := by
  cases a <;> cases b <;> first | rfl | simp [Json.kind] at h

theorem jsTypeof_not_object_kind {a : Json} (h : jsTypeof a ≠ "object") :
    Json.kind a ≤ 3 := by
  cases a <;> simp [jsTypeof, Json.kind] at h ⊢

/-- The equality used by the entity strategy holds exactly when the canonical
forms agree. -/
theorem valuesEqual_iff_canon (a b : Json) :
    valuesEqual a b = true ↔ canonicalize a = canonicalize b := by
  constructor
  · intro h
    unfold valuesEqual at h
    split at h
    · next hab => rw [eq_of_beq hab]
    · split at h
      · exact absurd h (by simp)
      · split at h
        · exact absurd h (by simp)
        · split at h
          · exact eq_of_beq h
          · exact absurd h (by simp)
  · intro hc
    by_cases hab : a = b
    · subst hab
      unfold valuesEqual
      simp
    · have hkind := canonicalize_kind_eq hc
      have ha : a ≠ Json.null := by
        rintro rfl
        exact hab (kind_eq_zero hkind.symm).symm
      have hb : b ≠ Json.null := by
        rintro rfl
        exact hab (kind_eq_zero hkind)
      have h3 : jsTypeof a = jsTypeof b := jsTypeof_eq_of_kind hkind
      by_cases h4 : jsTypeof a = "object"
      · unfold valuesEqual
        have h1 : (a == b) = false := by simp [hab]
        have h2 : (a == Json.null || b == Json.null) = false := by simp [ha, hb]
        have h4b : jsTypeof b = "object" := by rw [← h3]; exact h4
        rw [h1, h2]
        simp [h3, h4, h4b, hc]
      · exact absurd (canonicalize_prim_inj a b (jsTypeof_not_object_kind h4) hc) hab

/-- Away from the typeof-object case the strategy equality is primitive
identity: the canonical forms are never consulted. -/
theorem valuesEqual_prim (a b : Json) (h : jsTypeof a ≠ "object") :
    valuesEqual a b = decide (a = b) := by
  by_cases hab : a = b
  · subst hab
    unfold valuesEqual
    simp
  · have hfalse : valuesEqual a b = false := by
      cases hv : valuesEqual a b
      · rfl
      · exfalso
        have hc := (valuesEqual_iff_canon a b).mp hv
        exact hab (canonicalize_prim_inj a b (jsTypeof_not_object_kind h) hc)
    rw [hfalse]
    simp [hab]

/-- Values of different kinds are never equal under the strategy equality. -/
theorem valuesEqual_kind_ne (a b : Json) (h : Json.kind a ≠ Json.kind b) :
    valuesEqual a b = false := by
  cases hv : valuesEqual a b
  · rfl
  · exact absurd (canonicalize_kind_eq ((valuesEqual_iff_canon a b).mp hv)) h

/-! ## Reordering invariance of canonicalisation -/

theorem canonicalize_arr_perm {xs ys : List Json} (h : List.Perm xs ys) :
    canonicalize (.arr xs) = canonicalize (.arr ys) := by
  rw [canonicalize_arr, canonicalize_arr,
    sortStrings_eq_of_perm (h.map canonicalize)]

theorem sorted_key_nodup_eq : ∀ l₁ l₂ : List (String × Json),
    List.Perm l₁ l₂ → (l₁.map Prod.fst).Nodup →
    l₁.Pairwise (fun p q => p.1 ≤ q.1) → l₂.Pairwise (fun p q => p.1 ≤ q.1) →
    l₁ = l₂
  | [], l₂, h, _, _, _ => (h.nil_eq).symm ▸ rfl
  | p :: t, [], h, _, _, _ => absurd h.symm.nil_eq (by simp)
  | p :: t, q :: t₂, h, hnd, hs₁, hs₂ => by
    have hpq : p = q := by
      by_contra hne
      have hp2 : p ∈ t₂ := by
        have hmem := h.mem_iff.mp (List.mem_cons_self p t)
        rcases List.mem_cons.mp hmem with hpq2 | hpt
        · exact absurd hpq2 hne
        · exact hpt
      have hq2 : q ∈ t := by
        have hmem := h.mem_iff.mpr (List.mem_cons_self q t₂)
        rcases List.mem_cons.mp hmem with hqp | hqt
        · exact absurd hqp.symm hne
        · exact hqt
      have h1 : p.1 ≤ q.1 := (List.pairwise_cons.mp hs₁).1 q hq2
      have h2 : q.1 ≤ p.1 := (List.pairwise_cons.mp hs₂).1 p hp2
      have hkey : p.1 = q.1 := le_antisymm h1 h2
      have : p.1 ∈ t.map Prod.fst := by
        rw [hkey]
        exact List.mem_map_of_mem Prod.fst hq2
      exact (List.nodup_cons.mp hnd).1 this
    subst hpq
    have ht : List.Perm t t₂ := h.cons_inv
    have := sorted_key_nodup_eq t t₂ ht (List.nodup_cons.mp hnd).2
      (List.pairwise_cons.mp hs₁).2 (List.pairwise_cons.mp hs₂).2
    rw [this]

theorem sortPairs_eq_of_perm {fs gs : List (String × Json)}
    (h : List.Perm fs gs) (hnd : (fs.map Prod.fst).Nodup) :
    sortPairs fs = sortPairs gs := by
  apply sorted_key_nodup_eq
  · exact (sortPairs_perm fs).trans (h.trans (sortPairs_perm gs).symm)
  · exact ((sortPairs_perm fs).map Prod.fst).nodup_iff.mpr hnd
  · exact sortPairs_sorted fs
  · exact sortPairs_sorted gs

theorem canonicalize_obj_perm {fs gs : List (String × Json)}
    (h : List.Perm fs gs) (hnd : (fs.map Prod.fst).Nodup) :
    canonicalize (.obj fs) = canonicalize (.obj gs) := by
  rw [canonicalize_obj, canonicalize_obj, sortPairs_eq_of_perm h hnd]

theorem canonicalize_arr_congr {xs ys : List Json}
    (h : List.Forall₂ (fun a b => canonicalize a = canonicalize b) xs ys) :
    canonicalize (.arr xs) = canonicalize (.arr ys) := by
  rw [canonicalize_arr, canonicalize_arr]
  have : xs.map canonicalize = ys.map canonicalize := by
    induction h with
    | nil => rfl
    | cons hab _ ih => simp [hab, ih]
  rw [this]

/-- The value an object associates with a key (null when absent; only applied
at keys that are present). -/
def lookupD (fs : List (String × Json)) (k : String) : Json :=
  (fs.lookup k).getD Json.null

theorem keys_map_lookup : ∀ fs : List (String × Json), (fs.map Prod.fst).Nodup →
    (fs.map Prod.fst).map (fun k => (k, lookupD fs k)) = fs
  | [], _ => rfl
  | (k₀, v₀) :: rest, hnd => by
    simp only [List.map_cons]
    have h0 : lookupD ((k₀, v₀) :: rest) k₀ = v₀ := by
      simp [lookupD, List.lookup]
    rw [h0]
    have htail : (rest.map Prod.fst).map (fun k => (k, lookupD ((k₀, v₀) :: rest) k)) =
        (rest.map Prod.fst).map (fun k => (k, lookupD rest k)) := by
      apply List.map_congr_left
      intro k hk
      have hkne : k ≠ k₀ := by
        rintro rfl
        exact (List.nodup_cons.mp hnd).1 hk
      simp [lookupD, List.lookup, beq_eq_false_iff_ne.mpr hkne]
    rw [htail, keys_map_lookup rest (List.nodup_cons.mp hnd).2]

/-- With pairwise distinct keys, sorting the field pairs by key produces the
field of each key of the sorted key list: exactly the iteration the source
performs over sorted Object.keys. -/
theorem sortPairs_keys_lookup (fs : List (String × Json))
    (hnd : (fs.map Prod.fst).Nodup) :
    sortPairs fs = (sortStrings (fs.map Prod.fst)).map (fun k => (k, lookupD fs k)) := by
  apply sorted_key_nodup_eq
  · have h1 : List.Perm (sortPairs fs) fs := sortPairs_perm fs
    have h2 : List.Perm ((fs.map Prod.fst).map (fun k => (k, lookupD fs k)))
        ((sortStrings (fs.map Prod.fst)).map (fun k => (k, lookupD fs k))) :=
      ((sortStrings_perm (fs.map Prod.fst)).map _).symm
    rw [keys_map_lookup fs hnd] at h2
    exact h1.trans h2
  · exact ((sortPairs_perm fs).map Prod.fst).nodup_iff.mpr hnd
  · exact sortPairs_sorted fs
  · have := sortStrings_sorted (fs.map Prod.fst)
    exact List.pairwise_map.mpr (this.imp (fun h => h))

theorem forall₂_keys_eq {fs gs : List (String × Json)}
    (h : List.Forall₂ (fun p q : String × Json =>
      p.1 = q.1 ∧ canonicalize p.2 = canonicalize q.2) fs gs) :
    fs.map Prod.fst = gs.map Prod.fst := by
  induction h with
  | nil => rfl
  | cons h1 _ ih => simp [h1.1, ih]

theorem lookup_canon_congr {fs gs : List (String × Json)}
    (h : List.Forall₂ (fun p q : String × Json =>
      p.1 = q.1 ∧ canonicalize p.2 = canonicalize q.2) fs gs) :
    ∀ k, Option.map canonicalize (fs.lookup k) =
      Option.map canonicalize (gs.lookup k) := by
  induction h with
  | nil => intro k; rfl
  | @cons a b l₁ l₂ h1 _ ih =>
    intro k
    obtain ⟨ka, va⟩ := a
    obtain ⟨kb, vb⟩ := b
    obtain ⟨hk, hv⟩ := h1
    simp only at hk hv
    subst hk
    by_cases hkk : k = ka
    · subst hkk
      simp [List.lookup, hv]
    · simp only [List.lookup, beq_eq_false_iff_ne.mpr hkk]
      exact ih k

theorem canonicalize_obj_congr {fs gs : List (String × Json)}
    (hnd : (fs.map Prod.fst).Nodup)
    (h : List.Forall₂ (fun p q : String × Json =>
      p.1 = q.1 ∧ canonicalize p.2 = canonicalize q.2) fs gs) :
    canonicalize (.obj fs) = canonicalize (.obj gs) := by
  have hkeys : fs.map Prod.fst = gs.map Prod.fst := forall₂_keys_eq h
  have hndg : (gs.map Prod.fst).Nodup := hkeys ▸ hnd
  rw [canonicalize_obj, canonicalize_obj, sortPairs_keys_lookup fs hnd,
    sortPairs_keys_lookup gs hndg, ← hkeys]
  rw [List.map_map, List.map_map]
  have hmap : (sortStrings (fs.map Prod.fst)).map
      (canonPair ∘ fun k => (k, lookupD fs k)) =
      (sortStrings (fs.map Prod.fst)).map
      (canonPair ∘ fun k => (k, lookupD gs k)) := by
    apply List.map_congr_left
    intro k hk
    simp only [Function.comp_apply, canonPair]
    have hl := lookup_canon_congr h k
    have hval : canonicalize (lookupD fs k) = canonicalize (lookupD gs k) := by
      unfold lookupD
      cases hfs : fs.lookup k <;> cases hgs : gs.lookup k <;>
        rw [hfs, hgs] at hl <;> simp at hl <;> simp [hl]
    rw [hval]
  rw [hmap]

/-! ## Deep reordering -/

/-- Whether every object anywhere inside a value has pairwise distinct keys:
the JavaScript object domain. -/
def wfKeys : Json → Bool
  | .null => true
  | .bool _ => true
  | .num _ => true
  | .str _ => true
  | .arr xs => xs.attach.all (fun x => wfKeys x.1)
  | .obj fs =>
    decide ((fs.map Prod.fst).Nodup) && fs.attach.all (fun p => wfKeys p.1.2)
termination_by v => sizeOf v
decreasing_by
  · have hx := List.sizeOf_lt_of_mem x.2
    simp only [Json.arr.sizeOf_spec]
    omega
  · obtain ⟨⟨k, v⟩, hp⟩ := p
    have h1 := List.sizeOf_lt_of_mem hp
    have h2 : sizeOf ((k, v) : String × Json) = 1 + sizeOf k + sizeOf v := rfl
    simp only [Json.obj.sizeOf_spec]
    simp only [h2] at h1
    omega

theorem wfKeys_arr_iff (xs : List Json) :
    wfKeys (.arr xs) = true ↔ ∀ x ∈ xs, wfKeys x = true := by
  rw [wfKeys]
  simp [List.all_eq_true]

theorem wfKeys_obj_iff (fs : List (String × Json)) :
    wfKeys (.obj fs) = true ↔
      (fs.map Prod.fst).Nodup ∧ ∀ p ∈ fs, wfKeys p.2 = true := by
  rw [wfKeys]
  simp [List.all_eq_true]

theorem forall₂_append_of {α β : Type} {R : α → β → Prop}
    {l₁ : List α} {l₂ : List β} {l₃ : List α} {l₄ : List β}
    (h1 : List.Forall₂ R l₁ l₂) (h2 : List.Forall₂ R l₃ l₄) :
    List.Forall₂ R (l₁ ++ l₃) (l₂ ++ l₄) := by
  induction h1 with
  | nil => simpa using h2
  | cons h _ ih => exact List.Forall₂.cons h ih

/-- One reordering somewhere inside a JSON value: permute the elements of an
array, permute the field list of an object, or perform such a reordering
inside one array element or one object field value. -/
inductive DeepReorder : Json → Json → Prop where
  | arrPerm {xs ys : List Json} : List.Perm xs ys →
      DeepReorder (.arr xs) (.arr ys)
  | objPerm {fs gs : List (String × Json)} : List.Perm fs gs →
      DeepReorder (.obj fs) (.obj gs)
  | arrElem {l r : List Json} {v w : Json} : DeepReorder v w →
      DeepReorder (.arr (l ++ v :: r)) (.arr (l ++ w :: r))
  | objValue {l r : List (String × Json)} {k : String} {v w : Json} :
      DeepReorder v w →
      DeepReorder (.obj (l ++ (k, v) :: r)) (.obj (l ++ (k, w) :: r))

theorem deepReorder_canonicalize {a b : Json} (h : DeepReorder a b)
    (hwf : wfKeys a = true) : canonicalize a = canonicalize b := by
  induction h with
  | arrPerm hp => exact canonicalize_arr_perm hp
  | objPerm hp =>
    exact canonicalize_obj_perm hp ((wfKeys_obj_iff _).mp hwf).1
  | @arrElem l r v w hd ih =>
    have hwfv : wfKeys v = true :=
      (wfKeys_arr_iff _).mp hwf v (by simp)
    apply canonicalize_arr_congr
    apply forall₂_append_of
    · exact List.forall₂_same.mpr (fun x _ => rfl)
    · exact List.Forall₂.cons (ih hwfv) (List.forall₂_same.mpr (fun x _ => rfl))
  | @objValue l r k v w hd ih =>
    have hwfv : wfKeys v = true :=
      ((wfKeys_obj_iff _).mp hwf).2 (k, v) (by simp)
    apply canonicalize_obj_congr ((wfKeys_obj_iff _).mp hwf).1
    apply forall₂_append_of
    · exact List.forall₂_same.mpr (fun x _ => ⟨rfl, rfl⟩)
    · exact List.Forall₂.cons ⟨rfl, ih hwfv⟩
        (List.forall₂_same.mpr (fun x _ => ⟨rfl, rfl⟩))

/-! ## Flat (multiset) comparison strategy

Model of src/core/strategies/flatCompare.js.  A JavaScript Map is modelled by
an association list in insertion order: setting an existing key updates it
in place, a new key is appended. -/

/-- One entry of the multiset map: the insertion count and the representative
value retained at first insertion. -/
structure MsetEntry where
  count : Nat
  value : Json
  deriving Repr, DecidableEq

structure FlatSummary where
  missing : Nat
  extra : Nat
  deriving Repr, DecidableEq

structure FlatResult where
  missing : List Json
  extra : List Json
  summary : FlatSummary
  deriving Repr, DecidableEq

/-- Record one item under its canonical key: an existing entry keeps its
place and representative and gains one count; otherwise a fresh entry is
appended. -/
def bumpKey : List (String × MsetEntry) → String → Json → List (String × MsetEntry)
  | [], k, v => [(k, ⟨1, v⟩)]
  | (k₀, e) :: rest, k, v =>
    if k₀ = k then (k₀, ⟨e.count + 1, e.value⟩) :: rest
    else (k₀, e) :: bumpKey rest k v

/-- strategies/flatCompare.js, buildMultiset. -/
def buildMultiset (arr : List Json) : List (String × MsetEntry) :=
  arr.foldl (fun m item => bumpKey m (canonicalize item) item) []

/-- The count stored under a canonical key (0 when the key is absent). -/
def msetCount (m : List (String × MsetEntry)) (k : String) : Nat :=
  match m.lookup k with
  | some e => e.count
  | none => 0

/-- The representative stored under a canonical key. -/
def msetValue (m : List (String × MsetEntry)) (k : String) : Option Json :=
  Option.map MsetEntry.value (m.lookup k)

/-- strategies/flatCompare.js, flatCompare: for every key of each side, emit
count-minus-other-count copies of the representative (the loop bound
count - otherCount is not entered when negative, hence truncated
subtraction). -/
def flatCompare (savedArr currentArr : List Json) : FlatResult :=
  let savedMultiset := buildMultiset savedArr
  let currentMultiset := buildMultiset currentArr
  let missing := savedMultiset.flatMap
    (fun p => List.replicate (p.2.count - msetCount currentMultiset p.1) p.2.value)
  let extra := currentMultiset.flatMap
    (fun p => List.replicate (p.2.count - msetCount savedMultiset p.1) p.2.value)
  { missing := missing, extra := extra,
    summary := { missing := missing.length, extra := extra.length } }

theorem msetCount_cons (k₀ : String) (e : MsetEntry)
    (rest : List (String × MsetEntry)) (k' : String) :
    msetCount ((k₀, e) :: rest) k' =
      if k' = k₀ then e.count else msetCount rest k' := by
  by_cases h : k' = k₀
  · simp [msetCount, List.lookup, h]
  · simp [msetCount, List.lookup, h, beq_eq_false_iff_ne.mpr h]

theorem msetCount_nil (k' : String) : msetCount [] k' = 0 := rfl

theorem msetValue_cons (k₀ : String) (e : MsetEntry)
    (rest : List (String × MsetEntry)) (k' : String) :
    msetValue ((k₀, e) :: rest) k' =
      if k' = k₀ then some e.value else msetValue rest k' := by
  by_cases h : k' = k₀
  · simp [msetValue, List.lookup, h]
  · simp [msetValue, List.lookup, h, beq_eq_false_iff_ne.mpr h]

theorem bumpKey_count (m : List (String × MsetEntry)) (k : String) (v : Json)
    (k' : String) : msetCount (bumpKey m k v) k' =
      msetCount m k' + (if k' = k then 1 else 0) := by
  induction m with
  | nil =>
    simp only [bumpKey]
    by_cases h : k' = k
    · simp [msetCount_cons, h, msetCount, List.lookup]
    · simp [msetCount, List.lookup, h, beq_eq_false_iff_ne.mpr h]
  | cons p rest ih =>
    obtain ⟨k₀, e⟩ := p
    by_cases h0 : k₀ = k
    · subst h0
      simp only [bumpKey, if_pos rfl]
      by_cases h : k' = k₀ <;> simp [msetCount_cons, h]
    · simp only [bumpKey, if_neg h0]
      by_cases h : k' = k₀
      · subst h
        simp [msetCount_cons, h0]
      · simp [msetCount_cons, h, ih]

theorem bumpKey_value (m : List (String × MsetEntry)) (k : String) (v : Json)
    (k' : String) : msetValue (bumpKey m k v) k' =
      if k' = k then (msetValue m k').or (some v) else msetValue m k' := by
  induction m with
  | nil =>
    simp only [bumpKey]
    by_cases h : k' = k
    · simp [msetValue, List.lookup, h]
    · simp [msetValue, List.lookup, h, beq_eq_false_iff_ne.mpr h]
  | cons p rest ih =>
    obtain ⟨k₀, e⟩ := p
    by_cases h0 : k₀ = k
    · subst h0
      simp only [bumpKey, if_pos rfl]
      by_cases h : k' = k₀ <;> simp [msetValue_cons, h]
    · simp only [bumpKey, if_neg h0]
      by_cases h : k' = k₀
      · subst h
        simp [msetValue_cons, h0]
      · simp [msetValue_cons, h, ih]

theorem bumpKey_keys (m : List (String × MsetEntry)) (k : String) (v : Json) :
    (bumpKey m k v).map Prod.fst =
      if k ∈ m.map Prod.fst then m.map Prod.fst else m.map Prod.fst ++ [k] := by
  induction m with
  | nil => simp [bumpKey]
  | cons p rest ih =>
    obtain ⟨k₀, e⟩ := p
    by_cases h0 : k₀ = k
    · subst h0
      simp [bumpKey]
    · have hne : ¬ k = k₀ := fun e => h0 e.symm
      simp only [bumpKey, if_neg h0, List.map_cons, List.mem_cons]
      rw [ih]
      by_cases hmem : k ∈ rest.map Prod.fst <;> simp [hmem, hne]

theorem bumpKey_mem_inv (m : List (String × MsetEntry)) (k : String) (v : Json)
    (hm : ∀ p ∈ m, canonicalize (MsetEntry.value p.2) = p.1)
    (hk : canonicalize v = k) :
    ∀ p ∈ bumpKey m k v, canonicalize (MsetEntry.value p.2) = p.1 := by
  induction m with
  | nil =>
    intro p hp
    simp only [bumpKey, List.mem_singleton] at hp
    subst hp
    exact hk
  | cons q rest ih =>
    obtain ⟨k₀, e⟩ := q
    by_cases h0 : k₀ = k
    · subst h0
      intro p hp
      simp only [bumpKey, if_pos rfl] at hp
      rcases List.mem_cons.mp hp with h1 | h1
      · rw [h1]
        exact hm (k₀, e) (List.mem_cons_self _ _)
      · exact hm p (List.mem_cons_of_mem _ h1)
    · intro p hp
      simp only [bumpKey, if_neg h0] at hp
      rcases List.mem_cons.mp hp with h1 | h1
      · rw [h1]
        exact hm (k₀, e) (List.mem_cons_self _ _)
      · exact ih (fun q hq => hm q (List.mem_cons_of_mem _ hq)) p h1

theorem bumpKey_keys_nodup (m : List (String × MsetEntry)) (k : String) (v : Json)
    (hnd : (m.map Prod.fst).Nodup) : ((bumpKey m k v).map Prod.fst).Nodup := by
  rw [bumpKey_keys]
  by_cases h : k ∈ m.map Prod.fst
  · simp [h, hnd]
  · simp only [h, if_neg, if_false, reduceIte]
    rw [List.nodup_append]
    refine ⟨hnd, List.nodup_singleton k, ?_⟩
    intro a ha hak
    simp only [List.mem_singleton] at hak
    subst hak
    exact h ha

theorem buildMultiset_go_count : ∀ (arr : List Json)
    (acc : List (String × MsetEntry)) (k : String),
    msetCount (arr.foldl (fun m item => bumpKey m (canonicalize item) item) acc) k =
      msetCount acc k + arr.countP (fun x => decide (canonicalize x = k))
  | [], acc, k => by simp
  | x :: rest, acc, k => by
    rw [List.foldl_cons, buildMultiset_go_count rest _ k, bumpKey_count,
      List.countP_cons]
    by_cases h : canonicalize x = k
    · rw [if_pos h.symm, if_pos (by simpa using h)]
      omega
    · rw [if_neg (fun e => h e.symm), if_neg (by simpa using h)]
      omega

theorem buildMultiset_count (arr : List Json) (k : String) :
    msetCount (buildMultiset arr) k =
      arr.countP (fun x => decide (canonicalize x = k)) := by
  rw [buildMultiset, buildMultiset_go_count]
  simp [msetCount_nil]

theorem buildMultiset_go_value : ∀ (arr : List Json)
    (acc : List (String × MsetEntry)) (k : String),
    msetValue (arr.foldl (fun m item => bumpKey m (canonicalize item) item) acc) k =
      (msetValue acc k).or (arr.find? (fun x => decide (canonicalize x = k)))
  | [], acc, k => by simp [Option.or_none]
  | x :: rest, acc, k => by
    rw [List.foldl_cons, buildMultiset_go_value rest _ k, bumpKey_value]
    by_cases h : canonicalize x = k
    · rw [List.find?_cons_of_pos _ (by simp [h]), if_pos h.symm]
      cases msetValue acc k <;> simp
    · rw [List.find?_cons_of_neg _ (by simp [h]), if_neg (fun e => h e.symm)]

theorem buildMultiset_value (arr : List Json) (k : String) :
    msetValue (buildMultiset arr) k =
      arr.find? (fun x => decide (canonicalize x = k)) := by
  rw [buildMultiset, buildMultiset_go_value]
  simp [msetValue]

theorem buildMultiset_go_nodup : ∀ (arr : List Json)
    (acc : List (String × MsetEntry)),
    (acc.map Prod.fst).Nodup →
    (((arr.foldl (fun m item => bumpKey m (canonicalize item) item) acc)).map
      Prod.fst).Nodup
  | [], _, h => h
  | x :: rest, acc, h =>
    buildMultiset_go_nodup rest _ (bumpKey_keys_nodup _ _ _ h)

theorem buildMultiset_nodup (arr : List Json) :
    ((buildMultiset arr).map Prod.fst).Nodup :=
  buildMultiset_go_nodup arr [] (by simp)

theorem buildMultiset_go_inv : ∀ (arr : List Json)
    (acc : List (String × MsetEntry)),
    (∀ p ∈ acc, canonicalize (MsetEntry.value p.2) = p.1) →
    ∀ p ∈ arr.foldl (fun m item => bumpKey m (canonicalize item) item) acc,
      canonicalize (MsetEntry.value p.2) = p.1
  | [], _, h => h
  | x :: rest, acc, h =>
    buildMultiset_go_inv rest _ (bumpKey_mem_inv _ _ _ h rfl)

theorem buildMultiset_inv (arr : List Json) :
    ∀ p ∈ buildMultiset arr, canonicalize (MsetEntry.value p.2) = p.1 :=
  buildMultiset_go_inv arr [] (by simp)

theorem lookup_none_of_not_mem_keys {α : Type} :
    ∀ (m : List (String × α)) (k : String), k ∉ m.map Prod.fst →
    m.lookup k = none
  | [], _, _ => rfl
  | (k₀, e₀) :: rest, k, h => by
    have h1 : k ≠ k₀ := by
      intro e
      exact h (by simp [e])
    have h2 : k ∉ rest.map Prod.fst := fun hm => h (by simp [hm])
    simp only [List.lookup, beq_eq_false_iff_ne.mpr h1]
    exact lookup_none_of_not_mem_keys rest k h2

theorem lookup_eq_of_mem_nodup {α : Type} :
    ∀ (m : List (String × α)) (k : String) (e : α),
    (m.map Prod.fst).Nodup → (k, e) ∈ m → m.lookup k = some e
  | [], _, _, _, h => by simp at h
  | (k₀, e₀) :: rest, k, e, hnd, hm => by
    rcases List.mem_cons.mp hm with h1 | h1
    · injection h1 with h2 h3
      subst h2
      subst h3
      simp [List.lookup]
    · have hnd2 : k₀ ∉ rest.map Prod.fst ∧ (rest.map Prod.fst).Nodup := by
        rw [List.map_cons] at hnd
        exact ⟨(List.nodup_cons.mp hnd).1, (List.nodup_cons.mp hnd).2⟩
      have hk : k ≠ k₀ := by
        intro e2
        subst e2
        exact hnd2.1 (List.mem_map_of_mem Prod.fst h1)
      simp only [List.lookup, beq_eq_false_iff_ne.mpr hk]
      exact lookup_eq_of_mem_nodup rest k e hnd2.2 h1

theorem flatMap_replicate_countP (g : String × MsetEntry → Nat) :
    ∀ (m : List (String × MsetEntry)), (m.map Prod.fst).Nodup →
    (∀ p ∈ m, canonicalize (MsetEntry.value p.2) = p.1) → ∀ k : String,
    ((m.flatMap (fun p => List.replicate (g p) (MsetEntry.value p.2))).countP
      (fun v => decide (canonicalize v = k))) =
      (match m.lookup k with
       | some e => g (k, e)
       | none => 0)
  | [], _, _, k => rfl
  | (k₀, e₀) :: rest, hnd, hinv, k => by
    have hnd2 : k₀ ∉ rest.map Prod.fst ∧ (rest.map Prod.fst).Nodup := by
      rw [List.map_cons] at hnd
      exact ⟨(List.nodup_cons.mp hnd).1, (List.nodup_cons.mp hnd).2⟩
    rw [List.flatMap_cons, List.countP_append, List.countP_replicate]
    have hk₀ : canonicalize (MsetEntry.value e₀) = k₀ :=
      hinv (k₀, e₀) (List.mem_cons_self _ _)
    rw [flatMap_replicate_countP g rest hnd2.2
      (fun p hp => hinv p (List.mem_cons_of_mem _ hp)) k]
    by_cases h : k = k₀
    · subst h
      have hrest : rest.lookup k = none :=
        lookup_none_of_not_mem_keys rest k hnd2.1
      rw [hrest]
      simp [List.lookup, hk₀]
    · have hbe : (k == k₀) = false := beq_eq_false_iff_ne.mpr h
      have hval : ¬ canonicalize (MsetEntry.value e₀) = k := by
        rw [hk₀]
        exact fun e => h e.symm
      simp [List.lookup, hbe, hval]

theorem flatCompare_missing_def (s c : List Json) :
    (flatCompare s c).missing = (buildMultiset s).flatMap
      (fun p => List.replicate
        (p.2.count - msetCount (buildMultiset c) p.1) (MsetEntry.value p.2)) := rfl

theorem flatCompare_extra_def (s c : List Json) :
    (flatCompare s c).extra = (buildMultiset c).flatMap
      (fun p => List.replicate
        (p.2.count - msetCount (buildMultiset s) p.1) (MsetEntry.value p.2)) := rfl

theorem flatCompare_missing_count (s c : List Json) (k : String) :
    (flatCompare s c).missing.countP (fun v => decide (canonicalize v = k)) =
      s.countP (fun x => decide (canonicalize x = k)) -
      c.countP (fun x => decide (canonicalize x = k)) := by
  rw [flatCompare_missing_def,
    flatMap_replicate_countP _ _ (buildMultiset_nodup s) (buildMultiset_inv s) k]
  cases hl : (buildMultiset s).lookup k with
  | none =>
    have h0 : msetCount (buildMultiset s) k = 0 := by simp [msetCount, hl]
    rw [buildMultiset_count] at h0
    simp only []
    omega
  | some e =>
    have h1 : msetCount (buildMultiset s) k = e.count := by simp [msetCount, hl]
    rw [buildMultiset_count] at h1
    have h2 := buildMultiset_count c k
    show e.count - msetCount (buildMultiset c) k =
      s.countP (fun x => decide (canonicalize x = k)) -
      c.countP (fun x => decide (canonicalize x = k))
    rw [h2, ← h1]

theorem flatCompare_extra_count (s c : List Json) (k : String) :
    (flatCompare s c).extra.countP (fun v => decide (canonicalize v = k)) =
      c.countP (fun x => decide (canonicalize x = k)) -
      s.countP (fun x => decide (canonicalize x = k)) := by
  rw [flatCompare_extra_def,
    flatMap_replicate_countP _ _ (buildMultiset_nodup c) (buildMultiset_inv c) k]
  cases hl : (buildMultiset c).lookup k with
  | none =>
    have h0 : msetCount (buildMultiset c) k = 0 := by simp [msetCount, hl]
    rw [buildMultiset_count] at h0
    simp only []
    omega
  | some e =>
    have h1 : msetCount (buildMultiset c) k = e.count := by simp [msetCount, hl]
    rw [buildMultiset_count] at h1
    have h2 := buildMultiset_count s k
    show e.count - msetCount (buildMultiset s) k =
      c.countP (fun x => decide (canonicalize x = k)) -
      s.countP (fun x => decide (canonicalize x = k))
    rw [h2, ← h1]

theorem flatMap_replicate_rep (arr : List Json)
    (g : String × MsetEntry → Nat) :
    ∀ v ∈ (buildMultiset arr).flatMap
      (fun p => List.replicate (g p) (MsetEntry.value p.2)),
      arr.find? (fun x => decide (canonicalize x = canonicalize v)) = some v := by
  intro v hv
  rw [List.mem_flatMap] at hv
  obtain ⟨p, hp, hrep⟩ := hv
  have hvp : v = MsetEntry.value p.2 := List.eq_of_mem_replicate hrep
  subst hvp
  have hkey : canonicalize (MsetEntry.value p.2) = p.1 := buildMultiset_inv arr p hp
  rw [hkey]
  have hlk : (buildMultiset arr).lookup p.1 = some p.2 :=
    lookup_eq_of_mem_nodup _ _ _ (buildMultiset_nodup arr) (by simpa using hp)
  have hval := buildMultiset_value arr p.1
  rw [← hval]
  simp [msetValue, hlk]

theorem flatCompare_missing_rep (s c : List Json) :
    ∀ v ∈ (flatCompare s c).missing,
      s.find? (fun x => decide (canonicalize x = canonicalize v)) = some v := by
  rw [flatCompare_missing_def]
  exact flatMap_replicate_rep s _

theorem flatCompare_extra_rep (s c : List Json) :
    ∀ v ∈ (flatCompare s c).extra,
      c.find? (fun x => decide (canonicalize x = canonicalize v)) = some v := by
  rw [flatCompare_extra_def]
  exact flatMap_replicate_rep c _

theorem flatCompare_self (s : List Json) :
    (flatCompare s s).missing = [] ∧ (flatCompare s s).extra = [] := by
  have hnil : ∀ p ∈ buildMultiset s,
      List.replicate (p.2.count - msetCount (buildMultiset s) p.1)
        (MsetEntry.value p.2) = ([] : List Json) := by
    intro p hp
    have hlk : (buildMultiset s).lookup p.1 = some p.2 :=
      lookup_eq_of_mem_nodup _ _ _ (buildMultiset_nodup s) (by simpa using hp)
    have hc : msetCount (buildMultiset s) p.1 = p.2.count := by
      simp [msetCount, hlk]
    rw [hc]
    simp
  constructor
  · rw [flatCompare_missing_def]
    exact List.flatMap_eq_nil_iff.mpr hnil
  · rw [flatCompare_extra_def]
    exact List.flatMap_eq_nil_iff.mpr hnil

/-! ## Entity (id-based) comparison strategy

Model of src/core/strategies/entityCompare.js.  A JavaScript Map is again an
association list in insertion order.  Snapshot records are JSON objects; the
absent property value (JavaScript undefined) is Option.none. -/

/-- Read a property of a record (undefined, i.e. none, when absent; snapshot
records are JSON objects, so non-object values expose no properties here). -/
def getField (item : Json) (k : String) : Option Json :=
  match item with
  | .obj fields => fields.lookup k
  | _ => none

/-- The property names of a record (Object.keys). -/
def jsKeys (item : Json) : List String :=
  match item with
  | .obj fields => fields.map Prod.fst
  | _ => []

mutual

/-- Model of the JavaScript String() conversion on snapshot values: strings
pass through unquoted, numbers, booleans and null render as their text,
arrays join their elements with commas (null elements render empty, as in
Array.prototype.join), objects render as the fixed object tag. -/
def jsToString : Json → String
  | .null => "null"
  | .bool b => if b then "true" else "false"
  | .num n => numRepr n
  | .str s => s
  | .arr xs => String.intercalate "," (jsToStringElems xs)
  | .obj _ => "[object Object]"

/-- The element texts of an array under String() conversion. -/
def jsToStringElems : List Json → List String
  | [] => []
  | v :: vs =>
    (if v = Json.null then "" else jsToString v) :: jsToStringElems vs

end

/-- JavaScript Map.set on an association list: an existing key keeps its
position and receives the new value; a new key is appended. -/
def mapSet (m : List (String × Json)) (k : String) (v : Json) :
    List (String × Json) :=
  match m with
  | [] => [(k, v)]
  | (k₀, v₀) :: rest =>
    if k₀ = k then (k₀, v) :: rest else (k₀, v₀) :: mapSet rest k v

/-- The id value a record is indexed under, if any: the idField property when
it is neither undefined nor null (entityCompare.js indexById skips the
record otherwise). -/
def idValue (item : Json) (idField : String) : Option Json :=
  match getField item idField with
  | none => none
  | some .null => none
  | some v => some v

/-- The stringified id a record is indexed under, if any. -/
def idStr (item : Json) (idField : String) : Option String :=
  Option.map jsToString (idValue item idField)

/-- strategies/entityCompare.js, indexById: fold the array into a Map keyed
by the stringified id; a later record with an already-seen id overwrites the
stored record (the key keeps its original position). -/
def indexById (arr : List Json) (idField : String) : List (String × Json) :=
  arr.foldl (fun m item =>
    match idValue item idField with
    | none => m
    | some v => mapSet m (jsToString v) item) []

/-- src/core/compare.js, indexBy: identical logic to indexById. -/
def indexBy (arr : List Json) (field : String) : List (String × Json) :=
  indexById arr field

/-- One property difference; none is the absent marker (JavaScript
undefined), distinct from some Json.null (an explicit null value). -/
structure PropDiff where
  property : String
  saved : Option Json
  current : Option Json
  deriving Repr, DecidableEq

/-- First-occurrence deduplication: the iteration order of a JavaScript Set
built from a list (each element appears once, at the position of its first
occurrence). -/
def firstDedup : List String → List String
  | [] => []
  | k :: ks => k :: firstDedup (ks.filter (fun a => a ≠ k))
termination_by l => l.length
decreasing_by
  simp only [List.length_cons]
  have := List.length_filter_le (fun a => a ≠ k) ks
  omega

/-- strategies/entityCompare.js, diffProperties: walk the sorted union of the
property names of the two records, skip the id field and the excluded keys,
and emit a difference when a property is present on exactly one side, or is
present on both and the strategy equality fails. The per-key emission step,
factored out so the walk below is its filterMap. -/
def diffEmit (saved current : Json) (idField : String)
    (excludeKeys : List String) (key : String) : Option PropDiff :=
  if key = idField ∨ key ∈ excludeKeys then none
  else
    match getField saved key, getField current key with
    | some sv, none => some ⟨key, some sv, none⟩
    | none, some cv => some ⟨key, none, some cv⟩
    | some sv, some cv =>
      if valuesEqual sv cv then none else some ⟨key, some sv, some cv⟩
    | none, none => none

/-- strategies/entityCompare.js, diffProperties: the sorted deduplicated union
of the two records' property names, each passed through diffEmit. -/
def diffProperties (saved current : Json) (idField : String)
    (excludeKeys : List String) : List PropDiff :=
  let allKeys := sortStrings (firstDedup (jsKeys saved ++ jsKeys current))
  allKeys.filterMap (diffEmit saved current idField excludeKeys)

/-- A presence-difference entry: the stringified id and the indexed record. -/
structure IdEntity where
  id : String
  entity : Json
  deriving Repr, DecidableEq

/-- A matched entity: the shared id and its property differences. -/
structure MatchedEntry where
  id : String
  differences : List PropDiff
  deriving Repr, DecidableEq

structure EntitySummary where
  missing : Nat
  extra : Nat
  changed : Nat
  inSync : Nat
  deriving Repr, DecidableEq

structure EntityResult where
  missing : List IdEntity
  extra : List IdEntity
  matched : List MatchedEntry
  summary : EntitySummary
  deriving Repr, DecidableEq

/-- strategies/entityCompare.js, entityCompare: index both sides by
stringified id, classify ids present on exactly one side, and diff the
properties of every id present on both (iterating the maps in insertion
order; the changed/inSync tallies count matched entries with and without
differences, exactly as the source loop increments them). -/
def entityCompare (savedArr currentArr : List Json) (idField : String)
    (excludeKeys : List String) : EntityResult :=
  let savedMap := indexById savedArr idField
  let currentMap := indexById currentArr idField
  let missing := savedMap.filterMap (fun p =>
    if (currentMap.lookup p.1).isSome then none
    else some (⟨p.1, p.2⟩ : IdEntity))
  let extra := currentMap.filterMap (fun p =>
    if (savedMap.lookup p.1).isSome then none
    else some (⟨p.1, p.2⟩ : IdEntity))
  let matched := savedMap.filterMap (fun p =>
    match currentMap.lookup p.1 with
    | none => none
    | some currentEntity =>
      some (⟨p.1, diffProperties p.2 currentEntity idField excludeKeys⟩ :
        MatchedEntry))
  let changedCount := matched.countP (fun m => !m.differences.isEmpty)
  let inSyncCount := matched.countP (fun m => m.differences.isEmpty)
  { missing := missing, extra := extra, matched := matched,
    summary := { missing := missing.length, extra := extra.length,
                 changed := changedCount, inSync := inSyncCount } }

/-- The stringified ids of the records that carry one, in array order (with
repetitions). -/
def idsOf (arr : List Json) (idField : String) : List String :=
  arr.filterMap (fun r => idStr r idField)

theorem mapSet_lookup (m : List (String × Json)) (k : String) (v : Json)
    (k' : String) : (mapSet m k v).lookup k' =
      if k' = k then some v else m.lookup k' := by
  induction m with
  | nil =>
    by_cases h : k' = k
    · simp [mapSet, List.lookup, h]
    · simp [mapSet, List.lookup, h, beq_eq_false_iff_ne.mpr h]
  | cons p rest ih =>
    obtain ⟨k₀, v₀⟩ := p
    by_cases h0 : k₀ = k
    · subst h0
      by_cases h : k' = k₀
      · simp [mapSet, List.lookup, h]
      · simp [mapSet, List.lookup, h, beq_eq_false_iff_ne.mpr h]
    · simp only [mapSet, if_neg h0]
      by_cases h : k' = k₀
      · subst h
        simp [List.lookup, h0]
      · simp only [List.lookup, beq_eq_false_iff_ne.mpr h]
        exact ih

theorem mapSet_keys (m : List (String × Json)) (k : String) (v : Json) :
    (mapSet m k v).map Prod.fst =
      if k ∈ m.map Prod.fst then m.map Prod.fst
      else m.map Prod.fst ++ [k] := by
  induction m with
  | nil => simp [mapSet]
  | cons p rest ih =>
    obtain ⟨k₀, v₀⟩ := p
    by_cases h0 : k₀ = k
    · subst h0
      simp [mapSet]
    · have hne : ¬ k = k₀ := fun e => h0 e.symm
      simp only [mapSet, if_neg h0, List.map_cons, List.mem_cons]
      rw [ih]
      by_cases hmem : k ∈ rest.map Prod.fst <;> simp [hmem, hne]

theorem mapSet_keys_nodup (m : List (String × Json)) (k : String) (v : Json)
    (hnd : (m.map Prod.fst).Nodup) : ((mapSet m k v).map Prod.fst).Nodup := by
  rw [mapSet_keys]
  by_cases h : k ∈ m.map Prod.fst
  · simp [h, hnd]
  · simp only [h, if_false, reduceIte]
    rw [List.nodup_append]
    refine ⟨hnd, List.nodup_singleton k, ?_⟩
    intro a ha hak
    simp only [List.mem_singleton] at hak
    subst hak
    exact h ha

theorem getLast?_or_cons {α : Type} (r : α) (l : List α) :
    (r :: l).getLast? = (l.getLast?).or (some r) := by
  cases l with
  | nil => simp
  | cons x xs => simp [List.getLast?_cons_cons, Option.or]
    <;> cases h : (x :: xs).getLast? <;> simp_all

theorem or_some_or {α : Type} (x : Option α) (a : α) (y : Option α) :
    (x.or (some a)).or y = x.or (some a) := by
  cases x <;> simp

theorem indexById_go_lookup : ∀ (arr : List Json)
    (acc : List (String × Json)) (f k : String),
    ((arr.foldl (fun m item =>
      match idValue item f with
      | none => m
      | some v => mapSet m (jsToString v) item) acc).lookup k) =
      ((arr.filter (fun r => decide (idStr r f = some k))).getLast?).or
        (acc.lookup k)
  | [], acc, f, k => by simp
  | r :: rest, acc, f, k => by
    rw [List.foldl_cons]
    cases hid : idValue r f with
    | none =>
      have hstr : idStr r f = none := by simp [idStr, hid]
      rw [List.filter_cons_of_neg (by simp [hstr])]
      exact indexById_go_lookup rest acc f k
    | some v =>
      have hstr : idStr r f = some (jsToString v) := by simp [idStr, hid]
      by_cases hk : jsToString v = k
      · rw [List.filter_cons_of_pos (by simp [hstr, hk])]
        rw [indexById_go_lookup rest _ f k, mapSet_lookup, if_pos hk.symm]
        rw [getLast?_or_cons, or_some_or]
      · rw [List.filter_cons_of_neg (by simp [hstr, hk])]
        rw [indexById_go_lookup rest _ f k, mapSet_lookup,
          if_neg (fun e => hk e.symm)]

/-- Last-write-wins: the record stored under an id is the last record of the
array whose stringified id is that id. -/
theorem indexById_lookup (arr : List Json) (f k : String) :
    (indexById arr f).lookup k =
      (arr.filter (fun r => decide (idStr r f = some k))).getLast? := by
  rw [indexById, indexById_go_lookup]
  simp [List.lookup]

theorem indexById_go_keys : ∀ (arr : List Json)
    (acc : List (String × Json)) (f : String),
    ((arr.foldl (fun m item =>
      match idValue item f with
      | none => m
      | some v => mapSet m (jsToString v) item) acc).map Prod.fst) =
      acc.map Prod.fst ++
        firstDedup ((idsOf arr f).filter
          (fun k => decide (k ∉ acc.map Prod.fst)))
  | [], acc, f => by simp [idsOf, firstDedup]
  | r :: rest, acc, f => by
    rw [List.foldl_cons]
    cases hid : idValue r f with
    | none =>
      have hstr : idStr r f = none := by simp [idStr, hid]
      have hids : idsOf (r :: rest) f = idsOf rest f := by
        simp [idsOf, hstr]
      rw [hids]
      exact indexById_go_keys rest acc f
    | some v =>
      have hstr : idStr r f = some (jsToString v) := by simp [idStr, hid]
      have hids : idsOf (r :: rest) f = jsToString v :: idsOf rest f := by
        simp [idsOf, hstr]
      rw [hids]
      by_cases hmem : jsToString v ∈ acc.map Prod.fst
      · rw [List.filter_cons_of_neg (by simp [hmem])]
        rw [indexById_go_keys rest _ f, mapSet_keys, if_pos hmem]
      · rw [List.filter_cons_of_pos (by simp [hmem])]
        rw [indexById_go_keys rest _ f, mapSet_keys, if_neg hmem]
        rw [firstDedup]
        have hfuse : ((idsOf rest f).filter
            (fun k => decide (k ∉ acc.map Prod.fst))).filter
              (fun a => a ≠ jsToString v) =
            (idsOf rest f).filter
              (fun k => decide (k ∉ acc.map Prod.fst ++ [jsToString v])) := by
          rw [List.filter_filter]
          apply List.filter_congr
          intro a _
          by_cases h1 : a ∈ acc.map Prod.fst <;>
            by_cases h2 : a = jsToString v <;> simp [h1, h2]
        rw [hfuse]
        simp [List.append_assoc]

theorem indexById_keys (arr : List Json) (f : String) :
    (indexById arr f).map Prod.fst = firstDedup (idsOf arr f) := by
  rw [indexById, indexById_go_keys]
  simp

theorem firstDedup_mem : ∀ (l : List String) (a : String),
    a ∈ firstDedup l ↔ a ∈ l
  | [], a => by simp [firstDedup]
  | k :: ks, a => by
    rw [firstDedup]
    by_cases h : a = k
    · simp [h]
    · simp only [List.mem_cons, h, false_or]
      rw [firstDedup_mem (ks.filter (fun x => x ≠ k)) a]
      simp [List.mem_filter, h]
termination_by l _ => l.length
decreasing_by
  simp only [List.length_cons]
  have := List.length_filter_le (fun a => a ≠ k) ks
  omega

theorem firstDedup_nodup : ∀ l : List String, (firstDedup l).Nodup
  | [] => by simp [firstDedup]
  | k :: ks => by
    rw [firstDedup, List.nodup_cons]
    refine ⟨?_, firstDedup_nodup (ks.filter (fun a => a ≠ k))⟩
    intro hk
    rw [firstDedup_mem] at hk
    simp at hk
termination_by l => l.length
decreasing_by
  simp only [List.length_cons]
  have := List.length_filter_le (fun a => a ≠ k) ks
  omega

theorem lookup_isSome_iff {α : Type} :
    ∀ (m : List (String × α)) (k : String),
    (m.lookup k).isSome = true ↔ k ∈ m.map Prod.fst
  | [], k => by simp [List.lookup]
  | (k₀, v₀) :: rest, k => by
    by_cases h : k = k₀
    · simp [List.lookup, h]
    · simp only [List.lookup, beq_eq_false_iff_ne.mpr h, List.map_cons,
        List.mem_cons, h, false_or]
      exact lookup_isSome_iff rest k

theorem indexById_go_nodup : ∀ (arr : List Json)
    (acc : List (String × Json)) (f : String),
    (acc.map Prod.fst).Nodup →
    (((arr.foldl (fun m item =>
      match idValue item f with
      | none => m
      | some v => mapSet m (jsToString v) item) acc)).map Prod.fst).Nodup
  | [], _, _, h => h
  | r :: rest, acc, f, h => by
    rw [List.foldl_cons]
    cases hid : idValue r f with
    | none => exact indexById_go_nodup rest acc f h
    | some v =>
      exact indexById_go_nodup rest _ f (mapSet_keys_nodup _ _ _ h)

theorem indexById_nodup (arr : List Json) (f : String) :
    ((indexById arr f).map Prod.fst).Nodup :=
  indexById_go_nodup arr [] f (by simp)

theorem mapSet_mem_inv (m : List (String × Json)) (k : String) (v : Json)
    (P : String × Json → Prop)
    (hm : ∀ p ∈ m, P p) (hkv : P (k, v)) : ∀ p ∈ mapSet m k v, P p := by
  induction m with
  | nil =>
    intro p hp
    simp only [mapSet, List.mem_singleton] at hp
    subst hp
    exact hkv
  | cons q rest ih =>
    obtain ⟨k₀, v₀⟩ := q
    intro p hp
    by_cases h0 : k₀ = k
    · subst h0
      simp only [mapSet, if_pos rfl] at hp
      rcases List.mem_cons.mp hp with h1 | h1
      · rw [h1]
        exact hkv
      · exact hm p (List.mem_cons_of_mem _ h1)
    · simp only [mapSet, if_neg h0] at hp
      rcases List.mem_cons.mp hp with h1 | h1
      · rw [h1]
        exact hm (k₀, v₀) (List.mem_cons_self _ _)
      · exact ih (fun q hq => hm q (List.mem_cons_of_mem _ hq)) p h1

theorem indexById_go_mem_inv : ∀ (arr : List Json)
    (acc : List (String × Json)) (f : String),
    (∀ p ∈ acc, idStr p.2 f = some p.1) →
    ∀ p ∈ arr.foldl (fun m item =>
      match idValue item f with
      | none => m
      | some v => mapSet m (jsToString v) item) acc,
      idStr p.2 f = some p.1
  | [], _, _, h => h
  | r :: rest, acc, f, h => by
    rw [List.foldl_cons]
    cases hid : idValue r f with
    | none => exact indexById_go_mem_inv rest acc f h
    | some v =>
      exact indexById_go_mem_inv rest _ f
        (mapSet_mem_inv _ _ _ _ h (by simp [idStr, hid]))

/-- Every entry of the index is a record stored under its own stringified
id. -/
theorem indexById_mem_inv (arr : List Json) (f : String) :
    ∀ p ∈ indexById arr f, idStr p.2 f = some p.1 :=
  indexById_go_mem_inv arr [] f (by simp)

theorem mem_indexById_keys_iff (arr : List Json) (f k : String) :
    k ∈ (indexById arr f).map Prod.fst ↔ k ∈ idsOf arr f := by
  rw [indexById_keys]
  exact firstDedup_mem _ k

theorem filterMap_if_map_id (m : List (String × Json)) (q : String → Bool) :
    ((m.filterMap (fun p =>
      if q p.1 then none else some (⟨p.1, p.2⟩ : IdEntity))).map IdEntity.id) =
      (m.map Prod.fst).filter (fun k => !q k) := by
  induction m with
  | nil => rfl
  | cons p rest ih =>
    obtain ⟨k, v⟩ := p
    by_cases h : q k <;> simp [List.filterMap_cons, h, ih]

theorem filterMap_match_map_id (m : List (String × Json))
    (look : String → Option Json) (f : String) (ex : List String) :
    ((m.filterMap (fun p =>
      match look p.1 with
      | none => none
      | some ce => some (⟨p.1, diffProperties p.2 ce f ex⟩ : MatchedEntry))).map
        MatchedEntry.id) =
      (m.map Prod.fst).filter (fun k => (look k).isSome) := by
  induction m with
  | nil => rfl
  | cons p rest ih =>
    obtain ⟨k, v⟩ := p
    cases h : look k <;> simp [List.filterMap_cons, h, ih]

theorem entityCompare_missing_def (s c : List Json) (f : String)
    (ex : List String) :
    (entityCompare s c f ex).missing = (indexById s f).filterMap (fun p =>
      if ((indexById c f).lookup p.1).isSome then none
      else some (⟨p.1, p.2⟩ : IdEntity)) := rfl

theorem entityCompare_extra_def (s c : List Json) (f : String)
    (ex : List String) :
    (entityCompare s c f ex).extra = (indexById c f).filterMap (fun p =>
      if ((indexById s f).lookup p.1).isSome then none
      else some (⟨p.1, p.2⟩ : IdEntity)) := rfl

theorem entityCompare_matched_def (s c : List Json) (f : String)
    (ex : List String) :
    (entityCompare s c f ex).matched = (indexById s f).filterMap (fun p =>
      match (indexById c f).lookup p.1 with
      | none => none
      | some currentEntity =>
        some (⟨p.1, diffProperties p.2 currentEntity f ex⟩ : MatchedEntry)) := rfl

theorem entityCompare_missing_ids (s c : List Json) (f : String)
    (ex : List String) :
    (entityCompare s c f ex).missing.map IdEntity.id =
      ((indexById s f).map Prod.fst).filter
        (fun k => !((indexById c f).lookup k).isSome) := by
  rw [entityCompare_missing_def]
  exact filterMap_if_map_id (indexById s f)
    (fun k => ((indexById c f).lookup k).isSome)

theorem entityCompare_extra_ids (s c : List Json) (f : String)
    (ex : List String) :
    (entityCompare s c f ex).extra.map IdEntity.id =
      ((indexById c f).map Prod.fst).filter
        (fun k => !((indexById s f).lookup k).isSome) := by
  rw [entityCompare_extra_def]
  exact filterMap_if_map_id (indexById c f)
    (fun k => ((indexById s f).lookup k).isSome)

theorem entityCompare_matched_ids (s c : List Json) (f : String)
    (ex : List String) :
    (entityCompare s c f ex).matched.map MatchedEntry.id =
      ((indexById s f).map Prod.fst).filter
        (fun k => ((indexById c f).lookup k).isSome) := by
  rw [entityCompare_matched_def]
  exact filterMap_match_map_id (indexById s f)
    (fun k => (indexById c f).lookup k) f ex

/-! ## Comparison engine (src/core/compare.js) and registry -/

inductive Strategy where
  | entity : Strategy
  | flat : Strategy
  deriving Repr, DecidableEq

/-- src/core/registry.js, EntityConfig: one entity-type descriptor (key in
the snapshot root, display label, strategy, identity field and nested child
descriptors; the source defaults idField to "id" and children to the empty
list). -/
inductive EntityConfig where
  | mk (key label : String) (strategy : Strategy) (idField : String)
      (children : List EntityConfig)
  deriving Repr

def EntityConfig.key : EntityConfig → String
  | .mk k _ _ _ _ => k

def EntityConfig.label : EntityConfig → String
  | .mk _ l _ _ _ => l

def EntityConfig.strategy : EntityConfig → Strategy
  | .mk _ _ s _ _ => s

def EntityConfig.idField : EntityConfig → String
  | .mk _ _ _ f _ => f

def EntityConfig.children : EntityConfig → List EntityConfig
  | .mk _ _ _ _ c => c

theorem EntityConfig.sizeOf_children_lt (c cc : EntityConfig)
    (h : cc ∈ c.children) : sizeOf cc < sizeOf c := by
  obtain ⟨k, l, st, f, ch⟩ := c
  simp only [EntityConfig.children] at h
  have h1 := List.sizeOf_lt_of_mem h
  simp only [mk.sizeOf_spec]
  omega

/-- A section of the report: the per-entity-type diff result.  Entity
sections carry presence lists, matched entries and optional child sections;
flat sections carry the multiset surplus lists.  parentId and parentLabel
are attached to child sections only. -/
inductive SectionTree where
  | entitySec (key label : String) (summary : EntitySummary)
      (missing extra : List IdEntity) (matched : List MatchedEntry)
      (childSections : Option (List SectionTree))
      (parentId parentLabel : Option String)
      (totalDifferences : Nat)
  | flatSec (key label : String) (summary : FlatSummary)
      (missing extra : List Json)
      (parentId parentLabel : Option String)
      (totalDifferences : Nat)
  deriving Repr

def SectionTree.key : SectionTree → String
  | .entitySec k _ _ _ _ _ _ _ _ _ => k
  | .flatSec k _ _ _ _ _ _ _ => k

def SectionTree.total : SectionTree → Nat
  | .entitySec _ _ _ _ _ _ _ _ _ t => t
  | .flatSec _ _ _ _ _ _ _ t => t

/-- The child sections of a section (empty when absent). -/
def SectionTree.childList : SectionTree → List SectionTree
  | .entitySec _ _ _ _ _ _ cs _ _ _ => cs.getD []
  | .flatSec _ _ _ _ _ _ _ _ => []

def SectionTree.parentId : SectionTree → Option String
  | .entitySec _ _ _ _ _ _ _ pid _ _ => pid
  | .flatSec _ _ _ _ _ pid _ _ => pid

def SectionTree.parentLabel : SectionTree → Option String
  | .entitySec _ _ _ _ _ _ _ _ pl _ => pl
  | .flatSec _ _ _ _ _ _ pl _ => pl

/-- Tag a child section with its parent id and the parent label
(compareChildren mutates the two fields onto the section). -/
def withParent (s : SectionTree) (pid plabel : String) : SectionTree :=
  match s with
  | .entitySec k l su m e ma cs _ _ t =>
    .entitySec k l su m e ma cs (some pid) (some plabel) t
  | .flatSec k l su m e _ _ t =>
    .flatSec k l su m e (some pid) (some plabel) t

/-- Extract a collection value as an array, defaulting to empty: models
the JavaScript pattern value-or-empty-array where the collection is either
absent (undefined, falsy) or a JSON array. -/
def orEmptyArr (v : Option Json) : List Json :=
  match v with
  | some (.arr xs) => xs
  | _ => []

/-- compare.js: extracting an entity collection from the snapshot root,
defaulting to empty when the key is absent. -/
def collection (root : Json) (k : String) : List Json :=
  orEmptyArr (getField root k)

/-- compareChildren: the parent record stored under an id, defaulting to the
empty object when the id is not indexed (indexed values are always objects,
hence truthy). -/
def parentOrEmpty (idx : List (String × Json)) (pid : String) : Json :=
  (idx.lookup pid).getD (.obj [])

/-- compare.js, getChildKeys: the child collection keys, excluded from
property-level diffing (empty when there are no children). -/
def getChildKeys (config : EntityConfig) : List String :=
  config.children.map EntityConfig.key

/-- compare.js, buildFlatSection. -/
def buildFlatSection (config : EntityConfig) (savedArr currentArr : List Json) :
    SectionTree :=
  let result := flatCompare savedArr currentArr
  .flatSec config.key config.label result.summary result.missing result.extra
    none none (result.summary.missing + result.summary.extra)

/-- compare.js, compareSection: route to the strategy; for the entity
strategy, also compare the child collections of every matched parent
(compareChildren, inlined here so the recursion is on the child descriptor)
and add the child totals into the section total. -/
def compareSection (config : EntityConfig) (savedArr currentArr : List Json) :
    SectionTree :=
  match config.strategy with
  | .flat => buildFlatSection config savedArr currentArr
  | .entity =>
    let result := entityCompare savedArr currentArr config.idField
      (config.children.map EntityConfig.key)
    let savedIndex := indexBy savedArr config.idField
    let currentIndex := indexBy currentArr config.idField
    let childSectionList :=
      if config.children.isEmpty then none
      else some (result.matched.flatMap (fun m =>
        config.children.attach.map (fun cc =>
          withParent
            (compareSection cc.1
              (orEmptyArr (getField (parentOrEmpty savedIndex m.id) cc.1.key))
              (orEmptyArr (getField (parentOrEmpty currentIndex m.id) cc.1.key)))
            m.id config.label)))
    let childTotal :=
      match childSectionList with
      | some secs => (secs.map SectionTree.total).sum
      | none => 0
    let sectionDiffs := result.summary.missing + result.summary.extra +
      result.summary.changed + childTotal
    .entitySec config.key config.label result.summary result.missing
      result.extra result.matched childSectionList none none sectionDiffs
termination_by sizeOf config
decreasing_by
  exact EntityConfig.sizeOf_children_lt config cc.1 cc.2

/-- compare.js, compareChildren: for every matched parent id and every child
descriptor, extract the named child collections from the two parent records
(defaulting to empty) and compare them recursively via compareSection,
tagging each resulting section with the parent id and the parent label; the
second component is the accumulated total of the child section totals. -/
def compareChildren (parentConfig : EntityConfig)
    (parentMatched : List MatchedEntry)
    (savedArr currentArr : List Json) : List SectionTree × Nat :=
  let savedIndex := indexBy savedArr parentConfig.idField
  let currentIndex := indexBy currentArr parentConfig.idField
  let sections := parentMatched.flatMap (fun m =>
    parentConfig.children.map (fun cc =>
      withParent
        (compareSection cc
          (orEmptyArr (getField (parentOrEmpty savedIndex m.id) cc.key))
          (orEmptyArr (getField (parentOrEmpty currentIndex m.id) cc.key)))
        m.id parentConfig.label))
  (sections, (sections.map SectionTree.total).sum)

structure Report where
  totalDifferences : Nat
  sections : List SectionTree

/-- src/core/compare.js, compare: one section per registry descriptor, with
collections defaulting to empty when the key is absent from a snapshot root;
the global total accumulates the per-section totals.  (The source iterates
the imported registry; here the registry is a parameter, and the wall-clock
timestamp the source attaches is external I/O and not modelled.) -/
def compare (reg : List EntityConfig) (saved current : Json) : Report :=
  let sections := reg.map (fun config =>
    compareSection config (collection saved config.key)
      (collection current config.key))
  { totalDifferences := (sections.map SectionTree.total).sum,
    sections := sections }

/-- src/core/registry.js: the concrete registry of the extension (the flat
descriptor carries no id field in the source; the unused default stands in
here). -/
def registry : List EntityConfig :=
  [ .mk "namespaceConfig" "Namespace Configuration" .entity "id" [],
    .mk "tasks" "Scheduled Tasks" .entity "id" [],
    .mk "webApplications" "Web Applications" .entity "id" [],
    .mk "sqlConnections" "SQL Gateway Connections" .entity "id" [],
    .mk "users" "Users" .entity "id" [],
    .mk "roles" "Roles" .entity "id" [],
    .mk "resources" "Resources" .entity "id" [],
    .mk "ssl" "Ssl Configurations" .entity "id" [],
    .mk "namespaces" "Namespaces" .entity "id"
      [ .mk "classes" "Classes" .entity "id" [],
        .mk "globals" "Globals" .entity "id" [],
        .mk "credentials" "Credentials" .entity "id" [],
        .mk "productionItems" "Production Items" .entity "id" [],
        .mk "lookups" "Lookup Tables" .flat "id" [] ] ]

theorem flatCompare_summary_missing (s c : List Json) :
    (flatCompare s c).summary.missing = (flatCompare s c).missing.length := rfl

theorem flatCompare_summary_extra (s c : List Json) :
    (flatCompare s c).summary.extra = (flatCompare s c).extra.length := rfl

theorem entityCompare_summary_missing (s c : List Json) (f : String)
    (ex : List String) :
    (entityCompare s c f ex).summary.missing =
      (entityCompare s c f ex).missing.length := rfl

theorem entityCompare_summary_extra (s c : List Json) (f : String)
    (ex : List String) :
    (entityCompare s c f ex).summary.extra =
      (entityCompare s c f ex).extra.length := rfl

theorem entityCompare_summary_changed (s c : List Json) (f : String)
    (ex : List String) :
    (entityCompare s c f ex).summary.changed =
      (entityCompare s c f ex).matched.countP
        (fun m => !m.differences.isEmpty) := rfl

theorem entityCompare_summary_inSync (s c : List Json) (f : String)
    (ex : List String) :
    (entityCompare s c f ex).summary.inSync =
      (entityCompare s c f ex).matched.countP
        (fun m => m.differences.isEmpty) := rfl

theorem compareSection_flat_eq (config : EntityConfig)
    (hs : config.strategy = .flat) (s c : List Json) :
    compareSection config s c = buildFlatSection config s c := by
  rw [compareSection, hs]

theorem compareSection_entity_eq (config : EntityConfig)
    (hs : config.strategy = .entity) (s c : List Json) :
    compareSection config s c =
      (let result := entityCompare s c config.idField
        (config.children.map EntityConfig.key)
       let childSectionList :=
         if config.children.isEmpty then none
         else some (compareChildren config result.matched s c).1
       let childTotal :=
         match childSectionList with
         | some secs => (secs.map SectionTree.total).sum
         | none => 0
       SectionTree.entitySec config.key config.label result.summary
         result.missing result.extra result.matched childSectionList none none
         (result.summary.missing + result.summary.extra +
           result.summary.changed + childTotal)) := by
  have hmap : ∀ m : MatchedEntry,
      config.children.attach.map (fun cc =>
        withParent
          (compareSection cc.1
            (orEmptyArr
              (getField (parentOrEmpty (indexBy s config.idField) m.id) cc.1.key))
            (orEmptyArr
              (getField (parentOrEmpty (indexBy c config.idField) m.id) cc.1.key)))
          m.id config.label) =
      config.children.map (fun cc =>
        withParent
          (compareSection cc
            (orEmptyArr
              (getField (parentOrEmpty (indexBy s config.idField) m.id) cc.key))
            (orEmptyArr
              (getField (parentOrEmpty (indexBy c config.idField) m.id) cc.key)))
          m.id config.label) :=
    fun m => List.attach_map_val config.children (fun cc =>
      withParent
        (compareSection cc
          (orEmptyArr
            (getField (parentOrEmpty (indexBy s config.idField) m.id) cc.key))
          (orEmptyArr
            (getField (parentOrEmpty (indexBy c config.idField) m.id) cc.key)))
        m.id config.label)
  rw [compareSection, hs]
  simp only [compareChildren, hmap]

theorem sizeOf_mem_childOpt_lt {k l : String} {su : EntitySummary}
    {missing extra : List IdEntity} {matched : List MatchedEntry}
    {cs : Option (List SectionTree)} {pid pl : Option String} {t : Nat}
    {sec : SectionTree} (h : sec ∈ cs.getD []) :
    sizeOf sec <
      sizeOf (SectionTree.entitySec k l su missing extra matched cs pid pl t) := by
  cases cs with
  | none => simp at h
  | some ll =>
    simp only [Option.getD_some] at h
    have h1 := List.sizeOf_lt_of_mem h
    simp only [SectionTree.entitySec.sizeOf_spec]
    have h2 : sizeOf (some ll) = 1 + sizeOf ll := rfl
    omega

/-- The recursive total invariant of a section: its total equals its own
direct difference count (entity strategy: missing + extra + changed; flat
strategy: missing + extra) plus the sum of the totals of its child sections,
recursively. -/
def totalsOk : SectionTree → Bool
  | .entitySec _ _ _ missing extra matched cs _ _ t =>
    (t == missing.length + extra.length +
      matched.countP (fun m => !m.differences.isEmpty) +
      (((cs.getD []).map SectionTree.total).sum)) &&
    (cs.getD []).attach.all (fun sec => totalsOk sec.1)
  | .flatSec _ _ _ missing extra _ _ t =>
    t == missing.length + extra.length
termination_by sec => sizeOf sec
decreasing_by
  exact sizeOf_mem_childOpt_lt sec.2

theorem totalsOk_entity_iff (k l : String) (su : EntitySummary)
    (missing extra : List IdEntity) (matched : List MatchedEntry)
    (cs : Option (List SectionTree)) (pid pl : Option String) (t : Nat) :
    totalsOk (.entitySec k l su missing extra matched cs pid pl t) = true ↔
      (t = missing.length + extra.length +
        matched.countP (fun m => !m.differences.isEmpty) +
        (((cs.getD []).map SectionTree.total).sum) ∧
      ∀ sec ∈ cs.getD [], totalsOk sec = true) := by
  rw [totalsOk]
  simp [List.all_eq_true]

theorem totalsOk_flat_iff (k l : String) (su : FlatSummary)
    (missing extra : List Json) (pid pl : Option String) (t : Nat) :
    totalsOk (.flatSec k l su missing extra pid pl t) = true ↔
      t = missing.length + extra.length := by
  rw [totalsOk]
  simp

theorem withParent_total (s : SectionTree) (pid pl : String) :
    (withParent s pid pl).total = s.total := by
  cases s <;> rfl

theorem compareChildren_sections (pc : EntityConfig)
    (pm : List MatchedEntry) (s c : List Json) :
    (compareChildren pc pm s c).1 = pm.flatMap (fun m =>
      pc.children.map (fun cc =>
        withParent
          (compareSection cc
            (orEmptyArr (getField (parentOrEmpty (indexBy s pc.idField) m.id)
              cc.key))
            (orEmptyArr (getField (parentOrEmpty (indexBy c pc.idField) m.id)
              cc.key)))
          m.id pc.label)) := rfl

theorem compareChildren_total (pc : EntityConfig) (pm : List MatchedEntry)
    (s c : List Json) :
    (compareChildren pc pm s c).2 =
      (((compareChildren pc pm s c).1).map SectionTree.total).sum := rfl

theorem withParent_totalsOk (s : SectionTree) (pid pl : String) :
    totalsOk (withParent s pid pl) = totalsOk s := by
  cases s <;> simp only [withParent, totalsOk]

theorem compareSection_totalsOk_aux : ∀ (n : Nat) (config : EntityConfig),
    sizeOf config ≤ n → ∀ savedArr currentArr : List Json,
    totalsOk (compareSection config savedArr currentArr) = true := by
  intro n
  induction n with
  | zero =>
    intro config h
    obtain ⟨k, l, st, f, ch⟩ := config
    simp [EntityConfig.mk.sizeOf_spec] at h
  | succ n ih =>
    intro config hcfg s c
    cases hs : config.strategy with
    | flat =>
      rw [compareSection_flat_eq config hs, buildFlatSection]
      rw [totalsOk_flat_iff]
      rw [flatCompare_summary_missing, flatCompare_summary_extra]
    | entity =>
      rw [compareSection_entity_eq config hs]
      simp only []
      rw [totalsOk_entity_iff]
      constructor
      · -- the total equation
        rw [entityCompare_summary_missing, entityCompare_summary_extra,
          entityCompare_summary_changed]
        by_cases hch : config.children.isEmpty
        · simp [hch]
        · simp [hch]
      · -- every child section satisfies the invariant
        intro sec hsec
        by_cases hch : config.children.isEmpty
        · simp [hch] at hsec
        · simp only [hch, Bool.false_eq_true, if_false, reduceIte,
            Option.getD_some] at hsec
          rw [compareChildren_sections, List.mem_flatMap] at hsec
          obtain ⟨m, _, hsec⟩ := hsec
          rw [List.mem_map] at hsec
          obtain ⟨cc, hcc, hval⟩ := hsec
          rw [← hval, withParent_totalsOk]
          have hlt : sizeOf cc < sizeOf config :=
            EntityConfig.sizeOf_children_lt config cc hcc
          exact ih cc (by omega) _ _

/-- Every section the engine produces satisfies the recursive total
invariant. -/
theorem compareSection_totalsOk (config : EntityConfig)
    (savedArr currentArr : List Json) :
    totalsOk (compareSection config savedArr currentArr) = true :=
  compareSection_totalsOk_aux (sizeOf config) config (Nat.le_refl _)
    savedArr currentArr

theorem compareSection_key (config : EntityConfig) (s c : List Json) :
    (compareSection config s c).key = config.key := by
  cases hs : config.strategy with
  | entity =>
    rw [compareSection_entity_eq config hs]
    rfl
  | flat =>
    rw [compareSection_flat_eq config hs]
    rfl

theorem compareSection_empty_total (config : EntityConfig) :
    (compareSection config [] []).total = 0 := by
  cases hs : config.strategy with
  | flat =>
    rw [compareSection_flat_eq config hs]
    rfl
  | entity =>
    rw [compareSection_entity_eq config hs]
    by_cases hch : config.children.isEmpty
    · simp only [hch, if_true, reduceIte]
      rfl
    · simp only [hch, Bool.false_eq_true, if_false, reduceIte]
      rfl

/-! ## Claims -/

/-- C1: For every Section produced by the engine, top-level or nested,
totalDifferences equals the section's own direct difference count (entity
strategy: missing-count + extra-count + changed-count, where changed counts
the matched entries with a non-empty difference list; flat strategy:
missing-count + extra-count) plus the sum of the totalDifferences of all its
childSections, recursively (totalsOk checks exactly this, recursively
through every descendant section); and the Report's totalDifferences equals
the sum of the totalDifferences of its top-level sections. -/
theorem totals_recursive_consistency :
    (∀ (config : EntityConfig) (savedArr currentArr : List Json),
      totalsOk (compareSection config savedArr currentArr) = true) ∧
    ∀ (reg : List EntityConfig) (saved current : Json),
      (compare reg saved current).totalDifferences =
        (((compare reg saved current).sections.map SectionTree.total).sum) ∧
      ∀ sec ∈ (compare reg saved current).sections, totalsOk sec = true := by
  refine ⟨compareSection_totalsOk, ?_⟩
  intro reg saved current
  refine ⟨rfl, ?_⟩
  intro sec hsec
  have hdef : (compare reg saved current).sections = reg.map (fun config =>
      compareSection config (collection saved config.key)
        (collection current config.key)) := rfl
  rw [hdef, List.mem_map] at hsec
  obtain ⟨config, _, hval⟩ := hsec
  rw [← hval]
  exact compareSection_totalsOk _ _ _

theorem totals_recursive_consistency_witness :
    totalsOk (compareSection
      (EntityConfig.mk "users" "Users" Strategy.entity "id" [])
      (collection (Json.obj []) "users")
      (collection (Json.obj []) "users")) = true := by
  have h := (totals_recursive_consistency.2
    [EntityConfig.mk "users" "Users" Strategy.entity "id" []]
    (Json.obj []) (Json.obj [])).2
  exact h _ (List.mem_cons_self _ _)

/-- C4: flatCompare keys a frequency map by canonicalize(record) on each
side and, for each canonical key with count Cs in saved and Cc in current,
emits exactly max(0, Cs - Cc) copies of the retained representative into
missing and exactly max(0, Cc - Cs) copies into extra (truncated natural
subtraction is exactly max(0, difference)); every emitted element is the
retained representative, namely the first record of that side with that
canonical key; and flatCompare(A, A) yields empty missing and extra. -/
theorem flat_multiset_spec :
    ∀ savedArr currentArr : List Json,
      (∀ k : String,
        (flatCompare savedArr currentArr).missing.countP
            (fun v => decide (canonicalize v = k)) =
          savedArr.countP (fun x => decide (canonicalize x = k)) -
            currentArr.countP (fun x => decide (canonicalize x = k)) ∧
        (flatCompare savedArr currentArr).extra.countP
            (fun v => decide (canonicalize v = k)) =
          currentArr.countP (fun x => decide (canonicalize x = k)) -
            savedArr.countP (fun x => decide (canonicalize x = k))) ∧
      (∀ v ∈ (flatCompare savedArr currentArr).missing,
        savedArr.find? (fun x => decide (canonicalize x = canonicalize v)) =
          some v) ∧
      (∀ v ∈ (flatCompare savedArr currentArr).extra,
        currentArr.find? (fun x => decide (canonicalize x = canonicalize v)) =
          some v) ∧
      (flatCompare savedArr savedArr).missing = [] ∧
      (flatCompare savedArr savedArr).extra = [] := by
  intro s c
  exact ⟨fun k => ⟨flatCompare_missing_count s c k, flatCompare_extra_count s c k⟩,
    flatCompare_missing_rep s c, flatCompare_extra_rep s c,
    (flatCompare_self s).1, (flatCompare_self s).2⟩

theorem flat_multiset_spec_witness :
    Json.null ∈ (flatCompare [Json.null, Json.null] [Json.null]).missing ∧
    [Json.null, Json.null].find?
      (fun x => decide (canonicalize x = canonicalize Json.null)) =
      some Json.null := by
  have hmem : Json.null ∈ (flatCompare [Json.null, Json.null] [Json.null]).missing := by
    simp [flatCompare, buildMultiset, bumpKey, canonicalize, msetCount, List.lookup]
  exact ⟨hmem,
    (flat_multiset_spec [Json.null, Json.null] [Json.null]).2.1 Json.null hmem⟩

/-- C5: canonicalize is invariant under reordering: a DeepReorder step
permutes the elements of an array or the field insertion order of an object
anywhere inside a value (the congruence constructors lift the reordering
through enclosing arrays and object fields), and on the JavaScript object
domain (every object has pairwise distinct keys, checked by wfKeys) it
leaves the canonical string unchanged; in particular
canonicalize([1,2]) = canonicalize([2,1]) and
canonicalize(an object) is unchanged when its two fields swap order. -/
theorem canonicalize_reorder_invariance :
    (∀ a b : Json, DeepReorder a b → wfKeys a = true →
      canonicalize a = canonicalize b) ∧
    canonicalize (.arr [.num 1, .num 2]) = canonicalize (.arr [.num 2, .num 1]) ∧
    canonicalize (.obj [("a", .num 1), ("b", .num 2)]) =
      canonicalize (.obj [("b", .num 2), ("a", .num 1)]) := by
  refine ⟨fun a b h hw => deepReorder_canonicalize h hw, ?_, ?_⟩
  · exact deepReorder_canonicalize
      (DeepReorder.arrPerm (List.Perm.swap (Json.num 2) (Json.num 1) []))
      (by simp [wfKeys])
  · exact deepReorder_canonicalize
      (DeepReorder.objPerm (List.Perm.swap ("b", Json.num 2) ("a", Json.num 1) []))
      (by simp [wfKeys])

theorem canonicalize_reorder_invariance_witness :
    wfKeys (.obj [("a", Json.num 1), ("b", Json.num 2)]) = true ∧
    canonicalize (.obj [("a", Json.num 1), ("b", Json.num 2)]) =
      canonicalize (.obj [("b", Json.num 2), ("a", Json.num 1)]) :=
  ⟨by simp [wfKeys],
   canonicalize_reorder_invariance.1 _ _
     (DeepReorder.objPerm (List.Perm.swap ("b", Json.num 2) ("a", Json.num 1) []))
     (by simp [wfKeys])⟩

/-- C6: the equality used by the entity strategy (valuesEqual) holds iff the
canonical strings coincide; for values whose typeof is not object (the
non-object/array/null values) it short-circuits on primitive identity and
never consults canonicalize; and two values of different kinds are never
equal, even when their literal text forms coincide (witnessed by the string
"1" versus the number 1). -/
theorem values_equal_spec :
    ∀ a b : Json,
      (valuesEqual a b = true ↔ canonicalize a = canonicalize b) ∧
      (jsTypeof a ≠ "object" → valuesEqual a b = decide (a = b)) ∧
      (Json.kind a ≠ Json.kind b → valuesEqual a b = false) :=
  fun a b =>
    ⟨valuesEqual_iff_canon a b, valuesEqual_prim a b, valuesEqual_kind_ne a b⟩

theorem values_equal_spec_witness :
    jsTypeof (Json.str "1") ≠ "object" ∧
    Json.kind (Json.str "1") ≠ Json.kind (Json.num 1) ∧
    valuesEqual (Json.str "1") (Json.num 1) =
      decide (Json.str "1" = Json.num 1) ∧
    valuesEqual (Json.str "1") (Json.num 1) = false :=
  ⟨by decide, by decide,
   (values_equal_spec (Json.str "1") (Json.num 1)).2.1 (by decide),
   (values_equal_spec (Json.str "1") (Json.num 1)).2.2 (by decide)⟩

/-- C8: compare never fails on well-formed snapshot inputs (the model is a
total function); a top-level entity-type key absent from a snapshot root is
treated as the empty collection, and an empty collection and a missing key
are treated identically; the absence of a key is never itself reported as a
difference: every registry descriptor still produces a section, and when
the key is absent from both snapshot roots the section's totalDifferences
is zero. -/
theorem compare_defaults_spec :
    (∀ (root : Json) (k : String), getField root k = none →
      collection root k = []) ∧
    (∀ (root : Json) (k : String), getField root k = some (.arr []) →
      collection root k = []) ∧
    (∀ (reg : List EntityConfig) (saved current : Json),
      (compare reg saved current).sections.map SectionTree.key =
        reg.map EntityConfig.key) ∧
    (∀ (config : EntityConfig) (saved current : Json),
      getField saved config.key = none → getField current config.key = none →
      (compareSection config (collection saved config.key)
        (collection current config.key)).total = 0) := by
  refine ⟨?_, ?_, ?_, ?_⟩
  · intro root k h
    simp [collection, h, orEmptyArr]
  · intro root k h
    simp [collection, h, orEmptyArr]
  · intro reg saved current
    have hdef : (compare reg saved current).sections = reg.map (fun config =>
        compareSection config (collection saved config.key)
          (collection current config.key)) := rfl
    rw [hdef, List.map_map]
    apply List.map_congr_left
    intro config _
    exact compareSection_key config _ _
  · intro config saved current hs hc
    have h1 : collection saved config.key = [] := by
      simp [collection, hs, orEmptyArr]
    have h2 : collection current config.key = [] := by
      simp [collection, hc, orEmptyArr]
    rw [h1, h2]
    exact compareSection_empty_total config

theorem compare_defaults_spec_witness :
    getField (Json.obj []) "users" = none ∧
    (compareSection (EntityConfig.mk "users" "Users" Strategy.entity "id" [])
      (collection (Json.obj []) "users")
      (collection (Json.obj []) "users")).total = 0 :=
  ⟨rfl, compare_defaults_spec.2.2.2
    (EntityConfig.mk "users" "Users" Strategy.entity "id" [])
    (Json.obj []) (Json.obj []) rfl rfl⟩

theorem mem_missing_elim {s c : List Json} {f : String} {ex : List String}
    {e : IdEntity} (h : e ∈ (entityCompare s c f ex).missing) :
    (e.id, e.entity) ∈ indexById s f := by
  rw [entityCompare_missing_def, List.mem_filterMap] at h
  obtain ⟨p, hp, hpe⟩ := h
  by_cases hq : ((indexById c f).lookup p.1).isSome
  · rw [if_pos hq] at hpe
    simp at hpe
  · rw [if_neg hq] at hpe
    have he : (⟨p.1, p.2⟩ : IdEntity) = e := by injection hpe
    rw [← he]
    exact hp

theorem mem_extra_elim {s c : List Json} {f : String} {ex : List String}
    {e : IdEntity} (h : e ∈ (entityCompare s c f ex).extra) :
    (e.id, e.entity) ∈ indexById c f := by
  rw [entityCompare_extra_def, List.mem_filterMap] at h
  obtain ⟨p, hp, hpe⟩ := h
  by_cases hq : ((indexById s f).lookup p.1).isSome
  · rw [if_pos hq] at hpe
    simp at hpe
  · rw [if_neg hq] at hpe
    have he : (⟨p.1, p.2⟩ : IdEntity) = e := by injection hpe
    rw [← he]
    exact hp

theorem mem_matched_elim {s c : List Json} {f : String} {ex : List String}
    {m : MatchedEntry} (h : m ∈ (entityCompare s c f ex).matched) :
    ∃ se ce, (indexById s f).lookup m.id = some se ∧
      (indexById c f).lookup m.id = some ce ∧
      m.differences = diffProperties se ce f ex := by
  rw [entityCompare_matched_def, List.mem_filterMap] at h
  obtain ⟨p, hp, hpe⟩ := h
  cases hc : (indexById c f).lookup p.1 with
  | none =>
    rw [hc] at hpe
    simp at hpe
  | some ce =>
    rw [hc] at hpe
    have hm : (⟨p.1, diffProperties p.2 ce f ex⟩ : MatchedEntry) = m := by
      injection hpe
    rw [← hm]
    have hs : (indexById s f).lookup p.1 = some p.2 :=
      lookup_eq_of_mem_nodup _ _ _ (indexById_nodup s f) (by simpa using hp)
    exact ⟨p.2, ce, hs, hc, rfl⟩

theorem matched_not_missing (s c : List Json) (f : String) (ex : List String)
    (k : String)
    (hm : k ∈ (entityCompare s c f ex).matched.map MatchedEntry.id) :
    k ∉ (entityCompare s c f ex).missing.map IdEntity.id := by
  intro hmem
  rw [entityCompare_matched_ids, List.mem_filter] at hm
  rw [entityCompare_missing_ids, List.mem_filter] at hmem
  have h1 := hm.2
  have h2 := hmem.2
  rw [h1] at h2
  simp at h2

theorem matched_not_extra (s c : List Json) (f : String) (ex : List String)
    (k : String)
    (hm : k ∈ (entityCompare s c f ex).matched.map MatchedEntry.id) :
    k ∉ (entityCompare s c f ex).extra.map IdEntity.id := by
  intro hmem
  rw [entityCompare_matched_ids, List.mem_filter] at hm
  rw [entityCompare_extra_ids, List.mem_filter] at hmem
  have h1 : ((indexById s f).lookup k).isSome = true :=
    (lookup_isSome_iff _ k).mpr hm.1
  have h2 := hmem.2
  rw [h1] at h2
  simp at h2

/-- C2: for every pair of input arrays and identity field, every id
occurring in saved (the stringified idField value of a record carrying a
non-null id) appears in exactly one of the missing or matched lists, every
id occurring in current appears in exactly one of extra or matched (each id
at most once per list, so the lists are duplicate-free), and a record whose
idField value is absent or null is never the entity of a missing or extra
entry (it carries no id, so it also contributes nothing to matched). -/
theorem entity_partition_completeness :
    ∀ (savedArr currentArr : List Json) (idField : String) (ex : List String),
      (∀ k : String,
        (k ∈ idsOf savedArr idField ↔
          (k ∈ (entityCompare savedArr currentArr idField ex).missing.map
            IdEntity.id ∨
           k ∈ (entityCompare savedArr currentArr idField ex).matched.map
            MatchedEntry.id)) ∧
        ¬ (k ∈ (entityCompare savedArr currentArr idField ex).missing.map
            IdEntity.id ∧
           k ∈ (entityCompare savedArr currentArr idField ex).matched.map
            MatchedEntry.id) ∧
        (k ∈ idsOf currentArr idField ↔
          (k ∈ (entityCompare savedArr currentArr idField ex).extra.map
            IdEntity.id ∨
           k ∈ (entityCompare savedArr currentArr idField ex).matched.map
            MatchedEntry.id)) ∧
        ¬ (k ∈ (entityCompare savedArr currentArr idField ex).extra.map
            IdEntity.id ∧
           k ∈ (entityCompare savedArr currentArr idField ex).matched.map
            MatchedEntry.id)) ∧
      ((entityCompare savedArr currentArr idField ex).missing.map
        IdEntity.id).Nodup ∧
      ((entityCompare savedArr currentArr idField ex).extra.map
        IdEntity.id).Nodup ∧
      ((entityCompare savedArr currentArr idField ex).matched.map
        MatchedEntry.id).Nodup ∧
      (∀ r : Json, idValue r idField = none →
        (∀ e ∈ (entityCompare savedArr currentArr idField ex).missing,
          e.entity ≠ r) ∧
        (∀ e ∈ (entityCompare savedArr currentArr idField ex).extra,
          e.entity ≠ r)) := by
  intro s c f ex
  refine ⟨?_, ?_, ?_, ?_, ?_⟩
  · intro k
    refine ⟨?_, ?_, ?_, ?_⟩
    · rw [entityCompare_missing_ids, entityCompare_matched_ids,
        List.mem_filter, List.mem_filter, ← mem_indexById_keys_iff s f k]
      constructor
      · intro hk
        cases hsome : ((indexById c f).lookup k).isSome with
        | false => exact Or.inl ⟨hk, by simp⟩
        | true => exact Or.inr ⟨hk, by simp⟩
      · rintro (⟨hk, _⟩ | ⟨hk, _⟩) <;> exact hk
    · rintro ⟨h1, h2⟩
      exact matched_not_missing s c f ex k h2 h1
    · rw [entityCompare_extra_ids, entityCompare_matched_ids,
        List.mem_filter, List.mem_filter, ← mem_indexById_keys_iff c f k]
      constructor
      · intro hk
        cases hsome : ((indexById s f).lookup k).isSome with
        | false => exact Or.inl ⟨hk, by simp⟩
        | true =>
          refine Or.inr ⟨(lookup_isSome_iff _ k).mp hsome, ?_⟩
          exact (lookup_isSome_iff _ k).mpr hk
      · rintro (⟨hk, _⟩ | ⟨_, hk2⟩)
        · exact hk
        · exact (lookup_isSome_iff _ k).mp hk2
    · rintro ⟨h1, h2⟩
      exact matched_not_extra s c f ex k h2 h1
  · rw [entityCompare_missing_ids]
    exact (indexById_nodup s f).filter _
  · rw [entityCompare_extra_ids]
    exact (indexById_nodup c f).filter _
  · rw [entityCompare_matched_ids]
    exact (indexById_nodup s f).filter _
  · intro r hr
    constructor
    · intro e he hent
      have h1 := mem_missing_elim he
      have h2 := indexById_mem_inv s f _ h1
      rw [hent] at h2
      simp only [idStr, hr] at h2
      simp at h2
    · intro e he hent
      have h1 := mem_extra_elim he
      have h2 := indexById_mem_inv c f _ h1
      rw [hent] at h2
      simp only [idStr, hr] at h2
      simp at h2

theorem entity_partition_completeness_witness :
    "a" ∈ idsOf [Json.obj [("id", Json.str "a")]] "id" ∧
    ("a" ∈ (entityCompare [Json.obj [("id", Json.str "a")]] [] "id" []).missing.map
        IdEntity.id ∨
     "a" ∈ (entityCompare [Json.obj [("id", Json.str "a")]] [] "id" []).matched.map
        MatchedEntry.id) :=
  ⟨by decide,
   ((entity_partition_completeness [Json.obj [("id", Json.str "a")]] [] "id" []).1
     "a").1.mp (by decide)⟩

/-- C9: when one input array contains several records whose idField values
stringify to the same id, the index retains only the last such record in
array order (last-write-wins): the record stored under any id is the last
record of the array whose stringified id is that id, so earlier duplicates
play no part in presence classification (the entity reported missing or
extra under an id is that last record) or in property diffing (the
differences of a matched id are computed from the last such record on each
side). -/
theorem last_write_wins_spec :
    ∀ (savedArr currentArr : List Json) (idField : String) (ex : List String),
      (∀ k : String, (indexById savedArr idField).lookup k =
        (savedArr.filter
          (fun r => decide (idStr r idField = some k))).getLast?) ∧
      (∀ e ∈ (entityCompare savedArr currentArr idField ex).missing,
        (savedArr.filter
          (fun r => decide (idStr r idField = some e.id))).getLast? =
          some e.entity) ∧
      (∀ e ∈ (entityCompare savedArr currentArr idField ex).extra,
        (currentArr.filter
          (fun r => decide (idStr r idField = some e.id))).getLast? =
          some e.entity) ∧
      (∀ m ∈ (entityCompare savedArr currentArr idField ex).matched,
        ∃ sr cr,
          (savedArr.filter
            (fun r => decide (idStr r idField = some m.id))).getLast? =
            some sr ∧
          (currentArr.filter
            (fun r => decide (idStr r idField = some m.id))).getLast? =
            some cr ∧
          m.differences = diffProperties sr cr idField ex) := by
  intro s c f ex
  refine ⟨fun k => indexById_lookup s f k, ?_, ?_, ?_⟩
  · intro e he
    have h1 := mem_missing_elim he
    have h2 : (indexById s f).lookup e.id = some e.entity :=
      lookup_eq_of_mem_nodup _ _ _ (indexById_nodup s f) h1
    rw [← indexById_lookup]
    exact h2
  · intro e he
    have h1 := mem_extra_elim he
    have h2 : (indexById c f).lookup e.id = some e.entity :=
      lookup_eq_of_mem_nodup _ _ _ (indexById_nodup c f) h1
    rw [← indexById_lookup]
    exact h2
  · intro m hm
    obtain ⟨se, ce, hse, hce, hdiff⟩ := mem_matched_elim hm
    refine ⟨se, ce, ?_, ?_, hdiff⟩
    · rw [← indexById_lookup]
      exact hse
    · rw [← indexById_lookup]
      exact hce

theorem last_write_wins_spec_witness :
    (⟨"a", Json.obj [("id", Json.str "a"), ("x", Json.num 1)]⟩ : IdEntity) ∈
      (entityCompare [Json.obj [("id", Json.str "a")],
        Json.obj [("id", Json.str "b")],
        Json.obj [("id", Json.str "a"), ("x", Json.num 1)]] [] "id" []).missing ∧
    ([Json.obj [("id", Json.str "a")], Json.obj [("id", Json.str "b")],
      Json.obj [("id", Json.str "a"), ("x", Json.num 1)]].filter
        (fun r => decide (idStr r "id" = some "a"))).getLast? =
      some (Json.obj [("id", Json.str "a"), ("x", Json.num 1)]) := by
  have hmem : (⟨"a", Json.obj [("id", Json.str "a"), ("x", Json.num 1)]⟩ : IdEntity) ∈
      (entityCompare [Json.obj [("id", Json.str "a")],
        Json.obj [("id", Json.str "b")],
        Json.obj [("id", Json.str "a"), ("x", Json.num 1)]] [] "id" []).missing := by
    decide
  exact ⟨hmem,
    (last_write_wins_spec [Json.obj [("id", Json.str "a")],
      Json.obj [("id", Json.str "b")],
      Json.obj [("id", Json.str "a"), ("x", Json.num 1)]] [] "id" []).2.1 _ hmem⟩

theorem withParent_parentId (s : SectionTree) (pid pl : String) :
    (withParent s pid pl).parentId = some pid := by
  cases s <;> rfl

theorem withParent_parentLabel (s : SectionTree) (pid pl : String) :
    (withParent s pid pl).parentLabel = some pl := by
  cases s <;> rfl

/-- C7: child recursion runs only for parent ids that matched in both
snapshots, never for missing or extra parents; for each matched parent id
and each child descriptor, the named sub-collection is extracted from the
corresponding parent record on each side (defaulting to an empty collection
when absent), compareSection is invoked recursively on the pair, and the
resulting child section is tagged with that parent id and the parent
descriptor's label. -/
theorem child_recursion_spec :
    ∀ (parentConfig : EntityConfig) (savedArr currentArr : List Json),
      parentConfig.strategy = .entity →
      ((compareSection parentConfig savedArr currentArr).childList =
        (compareChildren parentConfig
          (entityCompare savedArr currentArr parentConfig.idField
            (parentConfig.children.map EntityConfig.key)).matched
          savedArr currentArr).1) ∧
      (∀ matched : List MatchedEntry,
        (compareChildren parentConfig matched savedArr currentArr).1 =
          matched.flatMap (fun m =>
            parentConfig.children.map (fun cc =>
              withParent
                (compareSection cc
                  (orEmptyArr (getField
                    (parentOrEmpty (indexBy savedArr parentConfig.idField) m.id)
                    cc.key))
                  (orEmptyArr (getField
                    (parentOrEmpty (indexBy currentArr parentConfig.idField) m.id)
                    cc.key)))
                m.id parentConfig.label))) ∧
      (∀ sec ∈ (compareChildren parentConfig
          (entityCompare savedArr currentArr parentConfig.idField
            (parentConfig.children.map EntityConfig.key)).matched
          savedArr currentArr).1,
        sec.parentLabel = some parentConfig.label ∧
        ∃ mid, sec.parentId = some mid ∧
          mid ∈ (entityCompare savedArr currentArr parentConfig.idField
            (parentConfig.children.map EntityConfig.key)).matched.map
              MatchedEntry.id ∧
          mid ∉ (entityCompare savedArr currentArr parentConfig.idField
            (parentConfig.children.map EntityConfig.key)).missing.map
              IdEntity.id ∧
          mid ∉ (entityCompare savedArr currentArr parentConfig.idField
            (parentConfig.children.map EntityConfig.key)).extra.map
              IdEntity.id) := by
  intro pc s c hs
  refine ⟨?_, fun matched => compareChildren_sections pc matched s c, ?_⟩
  · rw [compareSection_entity_eq pc hs]
    by_cases hch : pc.children.isEmpty
    · simp only [hch, if_true, reduceIte]
      have hnil : pc.children = [] := List.isEmpty_iff.mp hch
      rw [compareChildren_sections, hnil]
      simp [SectionTree.childList]
    · simp only [hch, Bool.false_eq_true, if_false, reduceIte]
      rfl
  · intro sec hsec
    rw [compareChildren_sections, List.mem_flatMap] at hsec
    obtain ⟨m, hm, hsec⟩ := hsec
    rw [List.mem_map] at hsec
    obtain ⟨cc, hcc, hval⟩ := hsec
    rw [← hval]
    refine ⟨withParent_parentLabel _ _ _, m.id, withParent_parentId _ _ _, ?_, ?_, ?_⟩
    · exact List.mem_map_of_mem MatchedEntry.id hm
    · exact matched_not_missing s c pc.idField _ m.id
        (List.mem_map_of_mem MatchedEntry.id hm)
    · exact matched_not_extra s c pc.idField _ m.id
        (List.mem_map_of_mem MatchedEntry.id hm)

theorem child_recursion_spec_witness :
    (EntityConfig.mk "namespaces" "Namespaces" Strategy.entity "id"
      [EntityConfig.mk "classes" "Classes" Strategy.entity "id" []]).strategy =
      Strategy.entity ∧
    (compareSection
      (EntityConfig.mk "namespaces" "Namespaces" Strategy.entity "id"
        [EntityConfig.mk "classes" "Classes" Strategy.entity "id" []])
      [Json.obj [("id", Json.str "ns1"),
        ("classes", Json.arr [Json.obj [("id", Json.str "c1")]])]]
      [Json.obj [("id", Json.str "ns1"), ("classes", Json.arr [])]]).childList =
    (compareChildren
      (EntityConfig.mk "namespaces" "Namespaces" Strategy.entity "id"
        [EntityConfig.mk "classes" "Classes" Strategy.entity "id" []])
      (entityCompare
        [Json.obj [("id", Json.str "ns1"),
          ("classes", Json.arr [Json.obj [("id", Json.str "c1")]])]]
        [Json.obj [("id", Json.str "ns1"), ("classes", Json.arr [])]]
        "id" ["classes"]).matched
      [Json.obj [("id", Json.str "ns1"),
        ("classes", Json.arr [Json.obj [("id", Json.str "c1")]])]]
      [Json.obj [("id", Json.str "ns1"), ("classes", Json.arr [])]]).1 :=
  ⟨rfl,
   (child_recursion_spec
     (EntityConfig.mk "namespaces" "Namespaces" Strategy.entity "id"
       [EntityConfig.mk "classes" "Classes" Strategy.entity "id" []])
     [Json.obj [("id", Json.str "ns1"),
       ("classes", Json.arr [Json.obj [("id", Json.str "c1")]])]]
     [Json.obj [("id", Json.str "ns1"), ("classes", Json.arr [])]] rfl).1⟩

theorem getField_isSome_iff (v : Json) (k : String) :
    (getField v k).isSome = true ↔ k ∈ jsKeys v := by
  cases v <;> first
    | exact lookup_isSome_iff _ _
    | simp [getField, jsKeys]

theorem allKeys_mem (s c : Json) (k : String) :
    k ∈ sortStrings (firstDedup (jsKeys s ++ jsKeys c)) ↔
      (k ∈ jsKeys s ∨ k ∈ jsKeys c) := by
  rw [(sortStrings_perm _).mem_iff, firstDedup_mem, List.mem_append]

theorem allKeys_nodup (s c : Json) :
    (sortStrings (firstDedup (jsKeys s ++ jsKeys c))).Nodup :=
  ((sortStrings_perm _).nodup_iff).mpr (firstDedup_nodup _)

theorem allKeys_pairwise_lt (s c : Json) :
    (sortStrings (firstDedup (jsKeys s ++ jsKeys c))).Pairwise
      (fun a b : String => a < b) := by
  have h1 := sortStrings_sorted (firstDedup (jsKeys s ++ jsKeys c))
  have h2 : (sortStrings (firstDedup (jsKeys s ++ jsKeys c))).Pairwise
      (fun a b : String => a ≠ b) := allKeys_nodup s c
  exact (h1.and h2).imp (fun hab => lt_of_le_of_ne hab.1 hab.2)

theorem filterMap_emit_map_prop (allKeys : List String)
    (emit : String → Option PropDiff)
    (hprop : ∀ k d, emit k = some d → d.property = k) :
    (allKeys.filterMap emit).map PropDiff.property =
      allKeys.filter (fun k => (emit k).isSome) := by
  induction allKeys with
  | nil => rfl
  | cons k rest ih =>
    cases h : emit k with
    | none => simp [List.filterMap_cons, h, ih]
    | some d => simp [List.filterMap_cons, h, ih, hprop k d h]

theorem diffProperties_eq_emit (s c : Json) (f : String) (ex : List String) :
    diffProperties s c f ex =
      (sortStrings (firstDedup (jsKeys s ++ jsKeys c))).filterMap
        (diffEmit s c f ex) := rfl

theorem diffEmit_elim {s c : Json} {f : String} {ex : List String}
    {k : String} {d : PropDiff} (h : diffEmit s c f ex k = some d) :
    d.property = k ∧ d.saved = getField s k ∧ d.current = getField c k ∧
      k ≠ f ∧ k ∉ ex := by
  by_cases hk : k = f ∨ k ∈ ex
  · rw [diffEmit, if_pos hk] at h
    exact absurd h (by simp)
  · push_neg at hk
    rw [diffEmit, if_neg (fun hor => hor.elim hk.1 hk.2)] at h
    cases hgs : getField s k with
    | none =>
      cases hgc : getField c k with
      | none =>
        rw [hgs, hgc] at h
        exact absurd h (by simp)
      | some cv =>
        rw [hgs, hgc] at h
        injection h with h1
        subst h1
        exact ⟨rfl, rfl, rfl, hk.1, hk.2⟩
    | some sv =>
      cases hgc : getField c k with
      | none =>
        rw [hgs, hgc] at h
        injection h with h1
        subst h1
        exact ⟨rfl, rfl, rfl, hk.1, hk.2⟩
      | some cv =>
        rw [hgs, hgc] at h
        have h2 : (if valuesEqual sv cv then none else
            some (⟨k, some sv, some cv⟩ : PropDiff)) = some d := h
        by_cases hv : valuesEqual sv cv = true
        · rw [if_pos hv] at h2
          exact absurd h2 (by simp)
        · rw [if_neg hv] at h2
          injection h2 with h1
          subst h1
          exact ⟨rfl, rfl, rfl, hk.1, hk.2⟩

theorem diffEmit_isSome (s c : Json) (f : String) (ex : List String)
    (k : String) :
    (diffEmit s c f ex k).isSome = true ↔
      (k ≠ f ∧ k ∉ ex ∧
        ((k ∈ jsKeys s ∧ k ∉ jsKeys c) ∨
         (k ∉ jsKeys s ∧ k ∈ jsKeys c) ∨
         (∃ sv cv, getField s k = some sv ∧ getField c k = some cv ∧
           canonicalize sv ≠ canonicalize cv))) := by
  have hks : (k ∈ jsKeys s) = ((getField s k).isSome = true) :=
    propext (getField_isSome_iff s k).symm
  have hkc : (k ∈ jsKeys c) = ((getField c k).isSome = true) :=
    propext (getField_isSome_iff c k).symm
  by_cases hk : k = f ∨ k ∈ ex
  · have hnone : diffEmit s c f ex k = none := by rw [diffEmit, if_pos hk]
    rw [hnone]
    simp only [Option.isSome_none, Bool.false_eq_true, false_iff]
    intro hcon
    exact hk.elim hcon.1 hcon.2.1
  · push_neg at hk
    rw [diffEmit, if_neg (fun hor => hor.elim hk.1 hk.2), hks, hkc]
    cases hgs : getField s k with
    | none =>
      cases hgc : getField c k with
      | none => simp [hk.1, hk.2]
      | some cv => simp [hk.1, hk.2]
    | some sv =>
      cases hgc : getField c k with
      | none => simp [hk.1, hk.2]
      | some cv =>
        show ((if valuesEqual sv cv then none else
            some (⟨k, some sv, some cv⟩ : PropDiff)).isSome = true ↔ _)
        by_cases hv : valuesEqual sv cv = true
        · rw [if_pos hv]
          have hcanon : canonicalize sv = canonicalize cv :=
            (valuesEqual_iff_canon sv cv).mp hv
          simp [hk.1, hk.2, hcanon]
        · rw [if_neg hv]
          have hcanon : canonicalize sv ≠ canonicalize cv :=
            fun he => hv ((valuesEqual_iff_canon sv cv).mpr he)
          simp [hk.1, hk.2, hcanon]

/-- C3: for every matched id, the per-entity differences list is
diffProperties of the two indexed records; diffProperties visits the union
of the two records' property names in strictly sorted order; every emitted
difference skips the id field and the excluded keys and carries the two
looked-up sides, so a one-sided property has the absent side equal to none
(the absent marker, distinct from some Json.null); and a name is emitted
exactly when it is not the id field, not excluded, and either present on
exactly one side or present on both with different canonical forms. -/
theorem diff_properties_spec (s c : Json) (f : String) (ex : List String)
    (savedArr currentArr : List Json) :
    (∀ m ∈ (entityCompare savedArr currentArr f ex).matched,
      ∃ se ce, (indexById savedArr f).lookup m.id = some se ∧
        (indexById currentArr f).lookup m.id = some ce ∧
        m.differences = diffProperties se ce f ex) ∧
    ((diffProperties s c f ex).map PropDiff.property).Pairwise
      (fun a b : String => a < b) ∧
    (∀ d ∈ diffProperties s c f ex,
      d.property ≠ f ∧ d.property ∉ ex ∧
      d.saved = getField s d.property ∧
      d.current = getField c d.property) ∧
    (∀ k : String,
      k ∈ (diffProperties s c f ex).map PropDiff.property ↔
        (k ≠ f ∧ k ∉ ex ∧
          ((k ∈ jsKeys s ∧ k ∉ jsKeys c) ∨
           (k ∉ jsKeys s ∧ k ∈ jsKeys c) ∨
           (∃ sv cv, getField s k = some sv ∧ getField c k = some cv ∧
             canonicalize sv ≠ canonicalize cv)))) := by
  refine ⟨fun m hm => mem_matched_elim hm, ?_, ?_, ?_⟩
  · rw [diffProperties_eq_emit,
      filterMap_emit_map_prop _ _ (fun k d h => (diffEmit_elim h).1)]
    exact (allKeys_pairwise_lt s c).sublist (List.filter_sublist _)
  · intro d hd
    rw [diffProperties_eq_emit, List.mem_filterMap] at hd
    obtain ⟨k, hk, he⟩ := hd
    obtain ⟨h1, h2, h3, h4, h5⟩ := diffEmit_elim he
    rw [h1]
    exact ⟨h4, h5, h2, h3⟩
  · intro k
    rw [diffProperties_eq_emit,
      filterMap_emit_map_prop _ _ (fun k' d h => (diffEmit_elim h).1)]
    simp only [List.mem_filter, allKeys_mem, diffEmit_isSome]
    constructor
    · exact fun h => h.2
    · intro h
      refine ⟨?_, h⟩
      rcases h.2.2 with ⟨h1, -⟩ | ⟨-, h1⟩ | ⟨sv, cv, h1, h2, -⟩
      · exact Or.inl h1
      · exact Or.inr h1
      · refine Or.inl ((getField_isSome_iff s k).mp ?_)
        rw [h1]
        rfl

/-- Concrete instance of C3: with saved having an extra "note" property, the
name "note" is reported as a difference (present only on the saved side). -/
theorem diff_properties_spec_witness :
    "note" ∈ (diffProperties
        (Json.obj [("id", Json.str "x"), ("note", Json.str "hi")])
        (Json.obj [("id", Json.str "x")]) "id" []).map PropDiff.property :=
  ((diff_properties_spec
      (Json.obj [("id", Json.str "x"), ("note", Json.str "hi")])
      (Json.obj [("id", Json.str "x")]) "id" [] [] []).2.2.2 "note").mpr
    ⟨by decide, by decide, Or.inl ⟨by decide, by decide⟩⟩

theorem indexById_lookup_isSome (arr : List Json) (f k : String) :
    ((indexById arr f).lookup k).isSome = decide (k ∈ idsOf arr f) := by
  have h := lookup_isSome_iff (indexById arr f) k
  rw [mem_indexById_keys_iff] at h
  refine Bool.eq_iff_iff.mpr ?_
  rw [decide_eq_true_eq]
  exact h

theorem indexOf_filter_lt (p : String → Bool) :
    ∀ (l : List String) (a b : String), a ∈ l.filter p → b ∈ l.filter p →
      (l.filter p).indexOf a < (l.filter p).indexOf b →
      l.indexOf a < l.indexOf b := by
  intro l
  induction l with
  | nil =>
    intro a b ha
    simp at ha
  | cons x xs ih =>
    intro a b ha hb hlt
    by_cases hpx : p x = true
    · rw [List.filter_cons_of_pos hpx] at ha hb hlt
      by_cases hax : a = x
      · have hbx : b ≠ x := by
          intro hbe
          rw [hax, hbe, List.indexOf_cons_self] at hlt
          exact Nat.not_lt_zero _ hlt
        rw [hax, List.indexOf_cons_self,
          List.indexOf_cons_ne xs (Ne.symm hbx)]
        exact Nat.succ_pos _
      · have hbx : b ≠ x := by
          intro hbe
          rw [hbe, List.indexOf_cons_self] at hlt
          exact Nat.not_lt_zero _ hlt
        rw [List.indexOf_cons_ne _ (Ne.symm hax),
          List.indexOf_cons_ne _ (Ne.symm hbx)] at hlt
        rw [List.indexOf_cons_ne xs (Ne.symm hax),
          List.indexOf_cons_ne xs (Ne.symm hbx)]
        have ha' : a ∈ xs.filter p := by
          rcases List.mem_cons.mp ha with h | h
          · exact absurd h hax
          · exact h
        have hb' : b ∈ xs.filter p := by
          rcases List.mem_cons.mp hb with h | h
          · exact absurd h hbx
          · exact h
        exact Nat.succ_lt_succ (ih a b ha' hb' (Nat.lt_of_succ_lt_succ hlt))
    · rw [List.filter_cons_of_neg (by simpa using hpx)] at ha hb hlt
      have hax : a ≠ x := by
        intro he
        rw [he] at ha
        exact hpx (List.mem_filter.mp ha).2
      have hbx : b ≠ x := by
        intro he
        rw [he] at hb
        exact hpx (List.mem_filter.mp hb).2
      rw [List.indexOf_cons_ne xs (Ne.symm hax),
        List.indexOf_cons_ne xs (Ne.symm hbx)]
      exact Nat.succ_lt_succ (ih a b ha hb hlt)

theorem firstDedup_pairwise_indexOf : ∀ l : List String,
    (firstDedup l).Pairwise (fun a b => l.indexOf a < l.indexOf b)
  | [] => by
    rw [firstDedup]
    exact List.Pairwise.nil
  | k :: ks => by
    rw [firstDedup]
    refine List.Pairwise.cons ?_ ?_
    · intro b hb
      have hbmem : b ∈ ks.filter (fun a => a ≠ k) := (firstDedup_mem _ _).mp hb
      have hbk : b ≠ k := by simpa using (List.mem_filter.mp hbmem).2
      rw [List.indexOf_cons_self, List.indexOf_cons_ne ks (Ne.symm hbk)]
      exact Nat.succ_pos _
    · have ih := firstDedup_pairwise_indexOf (ks.filter (fun a => a ≠ k))
      refine ih.imp_of_mem ?_
      intro a b ha hb hlt
      have ha' : a ∈ ks.filter (fun x => x ≠ k) := (firstDedup_mem _ _).mp ha
      have hb' : b ∈ ks.filter (fun x => x ≠ k) := (firstDedup_mem _ _).mp hb
      have hak : a ≠ k := by simpa using (List.mem_filter.mp ha').2
      have hbk : b ≠ k := by simpa using (List.mem_filter.mp hb').2
      rw [List.indexOf_cons_ne ks (Ne.symm hak),
        List.indexOf_cons_ne ks (Ne.symm hbk)]
      exact Nat.succ_lt_succ (indexOf_filter_lt _ ks a b ha' hb' hlt)
termination_by l => l.length
decreasing_by
  simp only [List.length_cons]
  have := List.length_filter_le (fun a => a ≠ k) ks
  omega

theorem entityCompare_missing_ids_first (s c : List Json) (f : String)
    (ex : List String) :
    (entityCompare s c f ex).missing.map IdEntity.id =
      (firstDedup (idsOf s f)).filter
        (fun k => decide (k ∉ idsOf c f)) := by
  rw [entityCompare_missing_ids, indexById_keys]
  congr 1
  funext k
  rw [indexById_lookup_isSome, decide_not]

theorem entityCompare_matched_ids_first (s c : List Json) (f : String)
    (ex : List String) :
    (entityCompare s c f ex).matched.map MatchedEntry.id =
      (firstDedup (idsOf s f)).filter
        (fun k => decide (k ∈ idsOf c f)) := by
  rw [entityCompare_matched_ids, indexById_keys]
  congr 1
  funext k
  rw [indexById_lookup_isSome]

theorem entityCompare_extra_ids_first (s c : List Json) (f : String)
    (ex : List String) :
    (entityCompare s c f ex).extra.map IdEntity.id =
      (firstDedup (idsOf c f)).filter
        (fun k => decide (k ∉ idsOf s f)) := by
  rw [entityCompare_extra_ids, indexById_keys]
  congr 1
  funext k
  rw [indexById_lookup_isSome, decide_not]

/-- The index in l of the LAST occurrence of a (counting from the front). -/
def lastIdxOf (l : List String) (a : String) : Nat :=
  l.length - 1 - l.reverse.indexOf a

/-- C10 (amended): entityCompare's output order is deterministic and derived
from input order, but by FIRST occurrence, not last: the missing and matched
lists enumerate the first-occurrence deduplication of the saved ids, filtered
by absence resp. presence among the current ids, and the extra list likewise
from the current side; hence each of the three lists is ordered by the
position of each id's first occurrence in its source array. -/
theorem output_order_spec (savedArr currentArr : List Json) (f : String)
    (ex : List String) :
    ((entityCompare savedArr currentArr f ex).missing.map IdEntity.id =
      (firstDedup (idsOf savedArr f)).filter
        (fun k => decide (k ∉ idsOf currentArr f))) ∧
    ((entityCompare savedArr currentArr f ex).matched.map MatchedEntry.id =
      (firstDedup (idsOf savedArr f)).filter
        (fun k => decide (k ∈ idsOf currentArr f))) ∧
    ((entityCompare savedArr currentArr f ex).extra.map IdEntity.id =
      (firstDedup (idsOf currentArr f)).filter
        (fun k => decide (k ∉ idsOf savedArr f))) ∧
    ((entityCompare savedArr currentArr f ex).missing.map IdEntity.id).Pairwise
      (fun a b => (idsOf savedArr f).indexOf a <
        (idsOf savedArr f).indexOf b) ∧
    ((entityCompare savedArr currentArr f ex).matched.map
        MatchedEntry.id).Pairwise
      (fun a b => (idsOf savedArr f).indexOf a <
        (idsOf savedArr f).indexOf b) ∧
    ((entityCompare savedArr currentArr f ex).extra.map IdEntity.id).Pairwise
      (fun a b => (idsOf currentArr f).indexOf a <
        (idsOf currentArr f).indexOf b) := by
  refine ⟨entityCompare_missing_ids_first savedArr currentArr f ex,
    entityCompare_matched_ids_first savedArr currentArr f ex,
    entityCompare_extra_ids_first savedArr currentArr f ex, ?_, ?_, ?_⟩
  · rw [entityCompare_missing_ids_first]
    exact (firstDedup_pairwise_indexOf _).sublist (List.filter_sublist _)
  · rw [entityCompare_matched_ids_first]
    exact (firstDedup_pairwise_indexOf _).sublist (List.filter_sublist _)
  · rw [entityCompare_extra_ids_first]
    exact (firstDedup_pairwise_indexOf _).sublist (List.filter_sublist _)

/-- A saved array in which id "a" occurs at positions 0 and 2 and id "b" at
position 1, so the last-indexed record of "a" sits AFTER that of "b". -/
def dupSavedArr : List Json :=
  [Json.obj [("id", Json.str "a")],
   Json.obj [("id", Json.str "b")],
   Json.obj [("id", Json.str "a"), ("x", Json.str "v1")]]

/-- C10 counterexample: against an empty current array, the missing list
comes out ordered ["a", "b"] (first occurrence), yet the last-indexed record
of "a" is at position 2 and that of "b" at position 1, so the missing list is
NOT ordered by the position of each id's last-indexed record in the saved
array. -/
theorem output_order_counterexample :
    ((entityCompare dupSavedArr [] "id" []).missing.map IdEntity.id
        = ["a", "b"]) ∧
    lastIdxOf (idsOf dupSavedArr "id") "a" = 2 ∧
    lastIdxOf (idsOf dupSavedArr "id") "b" = 1 ∧
    ¬ (((entityCompare dupSavedArr [] "id" []).missing.map
          IdEntity.id).Pairwise
        (fun a b => lastIdxOf (idsOf dupSavedArr "id") a <
          lastIdxOf (idsOf dupSavedArr "id") b)) := by
  refine ⟨?_, ?_, ?_, ?_⟩ <;> decide
